import Mathlib

/-!
# Verification of the publication knowledge-graph processor

Shallow embedding of `backend/data_processor.py` (class `PublicationProcessor`):
the text-processing primitives, keyword extraction, knowledge-graph
construction, similarity lookup, cluster merging, theme identification and the
full-text search engine, together with theorems settling the specification
claims about them.

External collaborators (the `requests`/BeautifulSoup fetch, NLTK's
`word_tokenize`/`PorterStemmer`, scikit-learn's `TfidfVectorizer`, Python's
process-local `hash`) are modelled as explicit parameters or, where the source
installs a documented fallback (tokenization, stop words), by that fallback.
-/

namespace NasaBio

/-! ## Python text primitives -/

/-- Python regex word character class `\w` restricted to ASCII:
letters, digits and underscore. -/
def isWordChar (c : Char) : Bool := c.isAlphanum || c = '_'

/-- Python `str.lower()`, computed on the underlying character list
(the corpus texts are ASCII). -/
def pyLower (s : String) : String := ⟨s.data.map Char.toLower⟩

/-- Maximal runs of `\w` characters of a character list, in order.
`re.findall(r'\b\w+\b', s)` returns exactly these runs. -/
def wordRunsAux (acc : List Char) : List Char → List (List Char)
  | [] => if acc.isEmpty then [] else [acc.reverse]
  | c :: cs =>
    if isWordChar c then wordRunsAux (c :: acc) cs
    else if acc.isEmpty then wordRunsAux [] cs
    else acc.reverse :: wordRunsAux [] cs

/-- `re.findall(r'\b\w+\b', s)`: the maximal word-character runs of `s`. -/
def wordRuns (s : String) : List String := (wordRunsAux [] s.data).map String.mk

/-- Maximal runs of non-whitespace characters, in order. -/
def spaceRunsAux (acc : List Char) : List Char → List (List Char)
  | [] => if acc.isEmpty then [] else [acc.reverse]
  | c :: cs =>
    if c.isWhitespace then
      (if acc.isEmpty then spaceRunsAux [] cs else acc.reverse :: spaceRunsAux [] cs)
    else spaceRunsAux (c :: acc) cs

/-- Python `str.split()` with no argument: whitespace-separated words,
empty strings dropped. -/
def pySplit (s : String) : List String := (spaceRunsAux [] s.data).map String.mk

/-- `re.findall(r'\b[a-zA-Z]{m,}\b', s)`.  A run of letters matches between two
word boundaries exactly when it is a maximal `\w`-run consisting of letters
only, so this equals the word runs that are all-alphabetic of length `≥ m`. -/
def alphaTokens (m : Nat) (s : String) : List String :=
  (wordRuns s).filter (fun w => w.data.all Char.isAlpha && m ≤ w.length)

/-- Python substring test `q in t` on strings. -/
def pyIn (q t : String) : Bool := decide (q.data <:+: t.data)

/-- Word-character test on an optional character; start/end of string count
as non-word positions for regex `\b`. -/
def wOpt : Option Char → Bool
  | none => false
  | some c => isWordChar c

/-- Does regex `\b w \b` match at the head of `t`, where `prev` is the
character immediately before `t` in the full text?  (For the non-empty
patterns the source searches for, `\b` holds at an end of `w` exactly when
word-character-ness changes across that end.) -/
def matchWordHere (w t : List Char) (prev : Option Char) : Bool :=
  w.isPrefixOf t && (wOpt prev != wOpt w.head?) &&
    (wOpt w.getLast? != wOpt (t.drop w.length).head?)

/-- Index of the first match of `\b w \b` (Python `re.search`),
scanning left to right. -/
def findWholeWordAux (w : List Char) (prev : Option Char) (i : Nat) :
    List Char → Option Nat
  | [] => if matchWordHere w [] prev then some i else none
  | c :: cs =>
    if matchWordHere w (c :: cs) prev then some i
    else findWholeWordAux w (some c) (i + 1) cs

/-- `re.search(r'\b{w}\b', text)`: start index of the leftmost
whole-word occurrence of `w`. -/
def findWholeWord (text w : String) : Option Nat :=
  findWholeWordAux w.data none 0 text.data

/-- Whether `re.search(r'\b{w}\b', text)` finds a match. -/
def containsWholeWord (text w : String) : Bool := (findWholeWord text w).isSome

/-- Python dict insertion: overwrite the value of an existing key in place,
otherwise append the new binding. -/
def dictInsert {α : Type} (m : List (String × α)) (k : String) (v : α) :
    List (String × α) :=
  if m.any (·.1 = k) then m.map (fun p => if p.1 = k then (k, v) else p)
  else m ++ [(k, v)]

/-- Python dict lookup. -/
def dictGet? {α : Type} (m : List (String × α)) (k : String) : Option α :=
  (m.find? (·.1 = k)).map (·.2)

/-- `collections.Counter` of a word list: keys in first-occurrence order,
values the multiplicities. -/
def counterOf (l : List String) : List (String × Nat) :=
  l.foldl (fun acc w =>
    if acc.any (·.1 = w) then
      acc.map (fun p => if p.1 = w then (p.1, p.2 + 1) else p)
    else acc ++ [(w, 1)]) []

/-- Insertion step of the stable descending sort: `x` goes after every
already-placed element whose key is `≥ key x`. -/
def insertKeyDesc {α β : Type} [LinearOrder β] (key : α → β) (x : α) :
    List α → List α
  | [] => [x]
  | y :: ys =>
    if key y < key x then x :: y :: ys else y :: insertKeyDesc key x ys

/-- Python `sorted(l, key=key, reverse=True)`: stable sort by key,
descending. -/
def sortKeyDesc {α β : Type} [LinearOrder β] (key : α → β) (l : List α) :
    List α :=
  l.foldl (fun acc x => insertKeyDesc key x acc) []

/-- `Counter.most_common(n)`: entries sorted by count descending, ties kept
in insertion order (CPython's `heapq.nlargest` is stable), truncated to `n`. -/
def most_common (c : List (String × Nat)) (n : Nat) : List (String × Nat) :=
  (sortKeyDesc Prod.snd c).take n

/-- The fallback stop-word set installed in `PublicationProcessor.__init__`
when NLTK's corpus is unavailable (NLTK's own English list is an external
resource; the source guarantees this set as the fallback). -/
def basic_stop_words : List String :=
  ["a", "an", "the", "and", "or", "but", "if", "because", "as", "what",
   "which", "this", "that", "these", "those", "then", "just", "so", "than",
   "such", "when", "who", "how", "where", "why", "is", "are", "was", "were",
   "be", "been", "being", "have", "has", "had", "having", "do", "does", "did",
   "doing", "to", "at", "by", "for", "with", "about", "against", "between",
   "into", "through", "during", "before", "after", "above", "below", "from",
   "up", "down", "in", "out", "on", "off", "over", "under", "again",
   "further", "then", "once", "here", "there", "all", "any", "both", "each",
   "few", "more", "most", "other", "some", "such", "no", "nor", "not",
   "only", "own", "same", "so", "than", "too", "very", "can", "will", "just",
   "should", "now", "of", "i", "me", "my", "myself", "we", "our", "ours",
   "ourselves", "you", "your", "yours", "yourself", "yourselves", "he",
   "him", "his", "himself", "she", "her", "hers", "herself", "it", "its",
   "itself", "they", "them", "their", "theirs", "themselves"]

/-! ## Cached documents -/

/-- A fetched/synthesized publication document as cached by
`fetch_publication_content` (the float timestamp is irrelevant to every
claim and omitted). -/
structure Doc where
  abstract : String := ""
  results : String := ""
  conclusion : String := ""
  full_text : String := ""
  source : String := "web"
  status : String := "success"
  error : Option String := none
deriving DecidableEq, Repr

/-! ## extract_keywords -/

/-- `extract_keywords(text, n)`: tokenize the lowercased text, keep alphabetic
non-stop-words, return the `n` most frequent with their counts.  The
`word_tokenize` attempt is an external NLTK call; the source's documented
fallback `re.findall(r'\b\w+\b', text.lower())` is the tokenization modelled
here (the two agree on space-separated alphabetic text). -/
def extract_keywords (stop : List String) (text : String) (n : Nat) :
    List (String × Nat) :=
  if text = "" then []
  else
    let words := wordRuns (pyLower text)
    let filtered_words :=
      words.filter (fun w => w.data.all Char.isAlpha && !(stop.contains w))
    most_common (counterOf filtered_words) n

/-! ## The knowledge graph (networkx.Graph model) -/

inductive NodeType where
  | publication
  | keyword
deriving DecidableEq, Repr

/-- Node attribute dict: publication nodes carry `type/url/themes`, keyword
nodes only `type`; `add_node` merges dicts, so re-typing a node keeps the
attribute keys it does not overwrite. -/
structure NodeAttrs where
  type : NodeType
  url : Option String
  themes : Option (List String)
deriving DecidableEq, Repr

/-- Edge attribute dict `{weight, section}` (field `sectionTag` stands for
the Python key `section`). -/
structure EdgeAttrs where
  weight : Nat
  sectionTag : String
deriving DecidableEq, Repr

/-- `networkx.Graph`: insertion-ordered nodes with attribute dicts, and
undirected edges keyed by an unordered endpoint pair (stored with the
endpoint order of the first insertion, as networkx does). -/
structure Graph where
  nodes : List (String × NodeAttrs)
  edges : List ((String × String) × EdgeAttrs)
deriving DecidableEq, Repr

def Graph.empty : Graph := ⟨[], []⟩

/-- Equality of undirected endpoint pairs. -/
def samePair (p q : String × String) : Bool :=
  (p.1 = q.1 && p.2 = q.2) || (p.1 = q.2 && p.2 = q.1)

/-- `add_node(k, **attrs)`: dict-update the attributes of an existing node in
place (`upd`), otherwise append a fresh node carrying `init`. -/
def upsertNode (g : Graph) (k : String) (init : NodeAttrs)
    (upd : NodeAttrs → NodeAttrs) : Graph :=
  if g.nodes.any (·.1 = k) then
    { g with nodes := g.nodes.map (fun p => if p.1 = k then (k, upd p.2) else p) }
  else { g with nodes := g.nodes ++ [(k, init)] }

/-- `add_node(title, type='publication', url=url, themes=themes)`:
overwrite all three attributes of an existing node, else append. -/
def Graph.addPubNode (g : Graph) (title url : String) (themes : List String) :
    Graph :=
  upsertNode g title ⟨.publication, some url, some themes⟩
    (fun _ => ⟨.publication, some url, some themes⟩)

/-- `add_node(keyword, type='keyword')`: dict-update of an existing node sets
only `type` (keeping `url`/`themes` — the source quirk behind the id-collision
open question), else append a bare keyword node. -/
def Graph.addKwNode (g : Graph) (term : String) : Graph :=
  upsertNode g term ⟨.keyword, none, none⟩ (fun a => { a with type := .keyword })

/-- `add_edge(u, v, weight=…, section=…)`: overwrite the attributes of an
existing undirected edge, else append it.  (In the source nodes are always
inserted before their edges, so edge insertion never creates nodes.) -/
def Graph.addEdge (g : Graph) (u v : String) (a : EdgeAttrs) : Graph :=
  if g.edges.any (fun e => samePair e.1 (u, v)) then
    { g with edges := g.edges.map (fun e =>
        if samePair e.1 (u, v) then (e.1, a) else e) }
  else { g with edges := g.edges ++ [((u, v), a)] }

/-- `G.nodes[v]` attribute dict, when the node exists. -/
def Graph.attr? (g : Graph) (v : String) : Option NodeAttrs := dictGet? g.nodes v

/-- `G.nodes[v]['type']`. -/
def Graph.typeOf (g : Graph) (v : String) : Option NodeType :=
  (g.attr? v).map (·.type)

/-- `G.neighbors(v)`: the other endpoint of every edge incident to `v`
(a self-loop contributes `v` itself once). -/
def Graph.neighbors (g : Graph) (v : String) : List String :=
  g.edges.filterMap (fun e =>
    if e.1.1 = v then some e.1.2
    else if e.1.2 = v then some e.1.1 else none)

/-! ## build_knowledge_graph -/

/-- One section's keyword loop inside `build_knowledge_graph`: for every
extracted `(keyword, count)` with `len(keyword) > 3`, insert/merge the
keyword node and write the `(title, keyword)` edge with that weight and
section tag. -/
def addSectionKeywords (g : Graph) (title : String)
    (kws : List (String × Nat)) (sec : String) : Graph :=
  kws.foldl (fun g kc =>
    if 3 < kc.1.length then (g.addKwNode kc.1).addEdge title kc.1 ⟨kc.2, sec⟩
    else g) g

/-- Processing of a single corpus row inside the build loop: insert the
publication node (with its themes), then the abstract keywords, then the
conclusion keywords.  `themesOf` abstracts `identify_publication_themes`,
whose randomized TF-IDF peer sampling makes the themes attribute
non-deterministic (the edge/keyword structure does not depend on it). -/
def processPub (stop : List String) (themesOf : String → Doc → List String)
    (g : Graph) (title url : String) (doc : Doc) : Graph :=
  let g := g.addPubNode title url (themesOf title doc)
  let g := addSectionKeywords g title (extract_keywords stop doc.abstract 10) "abstract"
  addSectionKeywords g title (extract_keywords stop doc.conclusion 10) "conclusion"

/-- `build_knowledge_graph` over a corpus of `(Title, Link)` rows, with the
content store (`fetch_publication_content` per URL) as a deterministic
collaborator `fetch`.  The `num_publications` truncation is the corpus list
itself; the cached-graph fast path is the deserialization modelled
separately below. -/
def build_knowledge_graph (stop : List String)
    (themesOf : String → Doc → List String) (fetch : String → Doc)
    (corpus : List (String × String)) : Graph :=
  corpus.foldl (fun g pub => processPub stop themesOf g pub.1 pub.2 (fetch pub.2))
    Graph.empty

/-! ## fetch_publication_content error path -/

/-- Python computation that may raise. -/
abbrev Py (α : Type) := Except String α

/-- `self.get_title_from_url(url)` is called at data_processor.py:185, but no
method of that name is defined on `PublicationProcessor` (nor anywhere in the
repository), so the attribute lookup itself raises `AttributeError`. -/
def get_title_from_url (_url : String) : Py String :=
  .error "AttributeError: PublicationProcessor object has no attribute get_title_from_url"

/-- `self.generate_synthetic_data(title)` (data_processor.py:187) is likewise
defined nowhere in the repository. -/
def generate_synthetic_data (_title : String) : Py Doc :=
  .error "AttributeError: PublicationProcessor object has no attribute generate_synthetic_data"

/-- Control flow of `fetch_publication_content(url)`: a cache hit returns the
cached document; otherwise the network fetch + HTML parse (collaborator
argument `fetched`) either produces a web record or raises, and the except
handler tries to synthesize a degraded record from the title. -/
def fetch_publication_content (url : String) (cached : Option Doc)
    (fetched : Py Doc) : Py Doc :=
  match cached with
  | some d => .ok d
  | none =>
    match fetched with
    | .ok d => .ok d
    | .error e =>
      match get_title_from_url url with
      | .error ae => .error ae
      | .ok title =>
        if title = "" then
          .ok { source := "error", status := "error", error := some e }
        else
          match generate_synthetic_data title with
          | .error ae => .error ae
          | .ok d => .ok { d with status := "error", error := some e }

/-! ## Lemmas about the sorting and dictionary primitives -/

theorem mem_insertKeyDesc {α β : Type} [LinearOrder β] (key : α → β) (x : α)
    (l : List α) (a : α) : a ∈ insertKeyDesc key x l ↔ a = x ∨ a ∈ l := by
  induction l with
  | nil => simp [insertKeyDesc]
  | cons y ys ih =>
    by_cases h : key y < key x
    · simp [insertKeyDesc, h]
    · simp only [insertKeyDesc, if_neg h, List.mem_cons, ih]
      tauto

theorem pairwise_insertKeyDesc {α β : Type} [LinearOrder β] (key : α → β)
    (x : α) (l : List α) (hl : l.Pairwise (fun a b => key b ≤ key a)) :
    (insertKeyDesc key x l).Pairwise (fun a b => key b ≤ key a) := by
  induction l with
  | nil => simp [insertKeyDesc]
  | cons y ys ih =>
    rcases List.pairwise_cons.mp hl with ⟨hy, hys⟩
    by_cases h : key y < key x
    · rw [insertKeyDesc, if_pos h]
      refine List.pairwise_cons.mpr ⟨?_, hl⟩
      intro z hz
      rcases List.mem_cons.mp hz with rfl | hz
      · exact le_of_lt h
      · exact le_trans (hy z hz) (le_of_lt h)
    · rw [insertKeyDesc, if_neg h]
      refine List.pairwise_cons.mpr ⟨?_, ih hys⟩
      intro z hz
      rcases (mem_insertKeyDesc key x ys z).mp hz with rfl | hz
      · exact not_lt.mp h
      · exact hy z hz

theorem mem_foldl_insertKeyDesc {α β : Type} [LinearOrder β] (key : α → β)
    (l : List α) (acc : List α) (a : α) :
    a ∈ l.foldl (fun acc x => insertKeyDesc key x acc) acc ↔ a ∈ acc ∨ a ∈ l := by
  induction l generalizing acc with
  | nil => simp
  | cons x xs ih =>
    rw [List.foldl_cons, ih]
    rw [mem_insertKeyDesc]
    simp
    tauto

theorem mem_sortKeyDesc {α β : Type} [LinearOrder β] (key : α → β)
    (l : List α) (a : α) : a ∈ sortKeyDesc key l ↔ a ∈ l := by
  rw [sortKeyDesc, mem_foldl_insertKeyDesc]
  simp

theorem pairwise_sortKeyDesc {α β : Type} [LinearOrder β] (key : α → β)
    (l : List α) :
    (sortKeyDesc key l).Pairwise (fun a b => key b ≤ key a) := by
  rw [sortKeyDesc]
  have : ∀ (xs : List α) (acc : List α),
      acc.Pairwise (fun a b => key b ≤ key a) →
      (xs.foldl (fun acc x => insertKeyDesc key x acc) acc).Pairwise
        (fun a b => key b ≤ key a) := by
    intro xs
    induction xs with
    | nil => intro acc h; simpa using h
    | cons x xs ih =>
      intro acc h
      exact ih _ (pairwise_insertKeyDesc key x acc h)
  exact this l [] (by simp)

theorem insertKeyDesc_const_key {α β : Type} [LinearOrder β] (key : α → β)
    (x : α) (l : List α) (h : ∀ a ∈ l, key a = key x) :
    insertKeyDesc key x l = l ++ [x] := by
  induction l with
  | nil => simp [insertKeyDesc]
  | cons y ys ih =>
    have hy : key y = key x := h y (by simp)
    rw [insertKeyDesc]
    rw [if_neg (by rw [hy]; exact lt_irrefl _)]
    rw [ih (fun a ha => h a (by simp [ha]))]
    simp

/-- A list whose keys are all equal is left unchanged by the stable sort. -/
theorem sortKeyDesc_const_key {α β : Type} [LinearOrder β] (key : α → β)
    (l : List α) (c : β) (h : ∀ a ∈ l, key a = c) : sortKeyDesc key l = l := by
  rw [sortKeyDesc]
  have main : ∀ (xs acc : List α), (∀ a ∈ xs, key a = c) →
      (∀ a ∈ acc, key a = c) →
      xs.foldl (fun acc x => insertKeyDesc key x acc) acc = acc ++ xs := by
    intro xs
    induction xs with
    | nil => intro acc _ _; simp
    | cons x xs ih =>
      intro acc hxs hacc
      rw [List.foldl_cons]
      rw [insertKeyDesc_const_key key x acc (fun a ha => by
        rw [hacc a ha, hxs x (by simp)])]
      rw [ih (acc ++ [x]) (fun a ha => hxs a (by simp [ha])) ?_]
      · simp
      · intro a ha
        rcases List.mem_append.mp ha with ha | ha
        · exact hacc a ha
        · simp at ha
          subst ha
          exact hxs a (by simp)
  simpa using main l [] h (by simp)

/-! ## Lemmas about the graph operations -/

theorem edges_upsertNode (g : Graph) (k : String) (init : NodeAttrs)
    (upd : NodeAttrs → NodeAttrs) : (upsertNode g k init upd).edges = g.edges := by
  rw [upsertNode]
  split <;> rfl

theorem find?_map_update_self (l : List (String × NodeAttrs)) (k : String)
    (upd : NodeAttrs → NodeAttrs) :
    (l.map (fun p => if p.1 = k then (k, upd p.2) else p)).find? (·.1 = k) =
      (l.find? (·.1 = k)).map (fun p => (k, upd p.2)) := by
  induction l with
  | nil => rfl
  | cons p ps ih =>
    by_cases hp : p.1 = k
    · simp [hp]
    · simp [hp, ih]

theorem find?_map_update_other (l : List (String × NodeAttrs)) (k : String)
    (upd : NodeAttrs → NodeAttrs) (v : String) (hv : v ≠ k) :
    (l.map (fun p => if p.1 = k then (k, upd p.2) else p)).find? (·.1 = v) =
      l.find? (·.1 = v) := by
  induction l with
  | nil => rfl
  | cons p ps ih =>
    rw [List.map_cons]
    by_cases hp : p.1 = k
    · have hkv : ¬ (k = v) := fun h => hv h.symm
      have hpv : ¬ (p.1 = v) := by rw [hp]; exact hkv
      rw [if_pos hp, List.find?_cons_of_neg _ (by simpa using hkv),
        List.find?_cons_of_neg _ (by simpa using hpv)]
      exact ih
    · rw [if_neg hp]
      by_cases hpv : p.1 = v
      · rw [List.find?_cons_of_pos _ (by simpa using hpv),
          List.find?_cons_of_pos _ (by simpa using hpv)]
      · rw [List.find?_cons_of_neg _ (by simpa using hpv),
          List.find?_cons_of_neg _ (by simpa using hpv)]
        exact ih

theorem attr?_upsertNode_other (g : Graph) (k : String) (init : NodeAttrs)
    (upd : NodeAttrs → NodeAttrs) (v : String) (hv : v ≠ k) :
    (upsertNode g k init upd).attr? v = g.attr? v := by
  by_cases hex : g.nodes.any (·.1 = k)
  · have h1 : (upsertNode g k init upd).nodes =
        g.nodes.map (fun p => if p.1 = k then (k, upd p.2) else p) := by
      rw [upsertNode, if_pos hex]
    simp only [Graph.attr?, dictGet?]
    rw [h1, find?_map_update_other _ _ _ _ hv]
  · have h1 : (upsertNode g k init upd).nodes = g.nodes ++ [(k, init)] := by
      rw [upsertNode, if_neg hex]
    have h2 : List.find? (fun p => (p.1 = v : Bool)) [(k, init)] = none := by
      have : ¬ (k = v) := fun h => hv h.symm
      simp [this]
    simp only [Graph.attr?, dictGet?]
    rw [h1, List.find?_append, h2]
    simp

theorem attr?_upsertNode_self (g : Graph) (k : String) (init : NodeAttrs)
    (upd : NodeAttrs → NodeAttrs) :
    (upsertNode g k init upd).attr? k =
      some (match g.attr? k with
            | some a => upd a
            | none => init) := by
  by_cases hex : g.nodes.any (·.1 = k)
  · have h1 : (upsertNode g k init upd).nodes =
        g.nodes.map (fun p => if p.1 = k then (k, upd p.2) else p) := by
      rw [upsertNode, if_pos hex]
    simp only [Graph.attr?, dictGet?]
    rw [h1, find?_map_update_self]
    cases hfind : g.nodes.find? (·.1 = k) with
    | none =>
      exfalso
      rw [List.find?_eq_none] at hfind
      rcases List.any_eq_true.mp hex with ⟨x, hx, hxk⟩
      exact absurd hxk (by simpa using hfind x hx)
    | some p => rfl
  · have h1 : (upsertNode g k init upd).nodes = g.nodes ++ [(k, init)] := by
      rw [upsertNode, if_neg hex]
    have hnone : g.nodes.find? (fun p => (p.1 = k : Bool)) = none := by
      rw [List.find?_eq_none]
      intro p hp
      simp only [List.any_eq_true, not_exists] at hex
      have := hex p
      simpa using fun h => this ⟨hp, h⟩
    have htail : List.find? (fun p => (p.1 = k : Bool)) [(k, init)] = some (k, init) := by
      simp
    simp only [Graph.attr?, dictGet?]
    rw [h1, List.find?_append, hnone, htail]
    rfl

theorem typeOf_addKwNode_self (g : Graph) (k : String) :
    (g.addKwNode k).typeOf k = some .keyword := by
  rw [Graph.addKwNode, Graph.typeOf, attr?_upsertNode_self]
  cases g.attr? k <;> rfl

theorem typeOf_addKwNode_other (g : Graph) (k v : String) (hv : v ≠ k) :
    (g.addKwNode k).typeOf v = g.typeOf v := by
  rw [Graph.addKwNode, Graph.typeOf, Graph.typeOf, attr?_upsertNode_other _ _ _ _ _ hv]

theorem edges_addKwNode (g : Graph) (k : String) :
    (g.addKwNode k).edges = g.edges := edges_upsertNode ..

theorem typeOf_addPubNode_self (g : Graph) (t u : String) (th : List String) :
    (g.addPubNode t u th).typeOf t = some .publication := by
  rw [Graph.addPubNode, Graph.typeOf, attr?_upsertNode_self]
  cases g.attr? t <;> rfl

theorem typeOf_addPubNode_other (g : Graph) (t u : String) (th : List String)
    (v : String) (hv : v ≠ t) : (g.addPubNode t u th).typeOf v = g.typeOf v := by
  rw [Graph.addPubNode, Graph.typeOf, Graph.typeOf, attr?_upsertNode_other _ _ _ _ _ hv]

theorem edges_addPubNode (g : Graph) (t u : String) (th : List String) :
    (g.addPubNode t u th).edges = g.edges := edges_upsertNode ..

theorem nodes_addEdge (g : Graph) (u v : String) (a : EdgeAttrs) :
    (g.addEdge u v a).nodes = g.nodes := by
  rw [Graph.addEdge]
  split <;> rfl

theorem typeOf_addEdge (g : Graph) (u v : String) (a : EdgeAttrs) (w : String) :
    (g.addEdge u v a).typeOf w = g.typeOf w := by
  rw [Graph.typeOf, Graph.typeOf, Graph.attr?, Graph.attr?, nodes_addEdge]

/-- Every edge of `addEdge g u v a` either re-uses a key already present in
`g` (attribute overwrite) or is the appended edge `((u,v),a)` itself. -/
theorem mem_edges_addEdge (g : Graph) (u v : String) (a : EdgeAttrs)
    (e : (String × String) × EdgeAttrs) (he : e ∈ (g.addEdge u v a).edges) :
    (∃ e' ∈ g.edges, e.1 = e'.1) ∨ e = ((u, v), a) := by
  rw [Graph.addEdge] at he
  by_cases hex : g.edges.any (fun e => samePair e.1 (u, v))
  · rw [if_pos hex] at he
    simp only [List.mem_map] at he
    rcases he with ⟨e', he', heq⟩
    left
    refine ⟨e', he', ?_⟩
    by_cases hsp : samePair e'.1 (u, v)
    · rw [if_pos hsp] at heq
      rw [← heq]
    · rw [if_neg hsp] at heq
      rw [← heq]
  · rw [if_neg hex] at he
    simp only [List.mem_append, List.mem_singleton] at he
    rcases he with he | he
    · exact Or.inl ⟨e, he, rfl⟩
    · exact Or.inr he

/-! ## C1: fetch failure handling -/

/-- C1. For a URL whose cache lookup misses and whose network fetch
raises, `fetch_publication_content` does NOT return a degraded record: the
except-handler's very first statement calls the undefined method
`get_title_from_url`, so an `AttributeError` escapes to the caller.  This
theorem evaluates the code at the failing input and shows the exception
propagating, contradicting the claim (the claim matches the handler's clear
intent, so the code, not the claim, is wrong). -/
theorem c1_fetch_failure_raises (url e : String) :
    fetch_publication_content url none (.error e) =
      .error "AttributeError: PublicationProcessor object has no attribute get_title_from_url" := by
  rfl

/-! ## C2: bipartite invariant of the built graph -/

/-- First half of C2: every edge joins one publication-typed node and one
keyword-typed node. -/
def edgesBipartite (g : Graph) : Prop :=
  ∀ e ∈ g.edges,
    (g.typeOf e.1.1 = some NodeType.publication ∧
     g.typeOf e.1.2 = some NodeType.keyword) ∨
    (g.typeOf e.1.1 = some NodeType.keyword ∧
     g.typeOf e.1.2 = some NodeType.publication)

/-- Second half of C2: every keyword-typed endpoint of an edge is a term
longer than 3 characters. -/
def edgeKeywordsLong (g : Graph) : Prop :=
  ∀ e ∈ g.edges,
    (g.typeOf e.1.1 = some NodeType.keyword → 3 < e.1.1.length) ∧
    (g.typeOf e.1.2 = some NodeType.keyword → 3 < e.1.2.length)

instance (g : Graph) : Decidable (edgesBipartite g) := by
  unfold edgesBipartite
  exact inferInstance

instance (g : Graph) : Decidable (edgeKeywordsLong g) := by
  unfold edgeKeywordsLong
  exact inferInstance

/-- Content store for the C2 counterexample: every document's abstract is the
single word "cells". -/
def c2Fetch : String → Doc := fun _ => { abstract := "cells" }

/-- The one-publication corpus whose title "cells" is itself extracted as a
keyword of its own abstract. -/
def c2Graph : Graph :=
  build_knowledge_graph basic_stop_words (fun _ _ => []) c2Fetch [("cells", "u1")]

/-- C2 counterexample.  On the corpus `[("cells", "u1")]` with abstract
"cells", `add_node("cells", type='keyword')` re-types the publication node and
`add_edge("cells", "cells")` creates a self-loop, so the built graph has an
edge both of whose endpoints are the same keyword-typed node: the bipartite
invariant fails. -/
theorem c2_counterexample :
    ¬ (edgesBipartite c2Graph ∧ edgeKeywordsLong c2Graph) := by
  decide

/-- The keyword terms for which `build_knowledge_graph` inserts keyword nodes
and edges while processing a document: the top-10 abstract and conclusion
keywords longer than 3 characters. -/
def docKeywordTerms (stop : List String) (doc : Doc) : List String :=
  ((extract_keywords stop doc.abstract 10 ++
    extract_keywords stop doc.conclusion 10).filter
      (fun kc => 3 < kc.1.length)).map Prod.fst

/-- Build invariant: every edge runs from a corpus title (publication-typed)
to a long keyword term that is not a corpus title (keyword-typed). -/
def bipartiteInv (T : List String) (g : Graph) : Prop :=
  ∀ e ∈ g.edges, e.1.1 ∈ T ∧ g.typeOf e.1.1 = some NodeType.publication ∧
    e.1.2 ∉ T ∧ g.typeOf e.1.2 = some NodeType.keyword ∧ 3 < e.1.2.length

theorem bipartiteInv_addSectionKeywords (T : List String) (g : Graph)
    (t : String) (kws : List (String × Nat)) (sec : String)
    (ht : t ∈ T) (htype : g.typeOf t = some NodeType.publication)
    (hkws : ∀ kc ∈ kws, 3 < kc.1.length → kc.1 ∉ T)
    (hg : bipartiteInv T g) :
    bipartiteInv T (addSectionKeywords g t kws sec) ∧
      (addSectionKeywords g t kws sec).typeOf t = some NodeType.publication := by
  induction kws generalizing g with
  | nil => exact ⟨hg, htype⟩
  | cons kc rest ih =>
    rw [addSectionKeywords, List.foldl_cons, ← addSectionKeywords]
    by_cases hlen : 3 < kc.1.length
    · rw [if_pos hlen]
      have hkcT : kc.1 ∉ T := hkws kc (by simp) hlen
      have htk : t ≠ kc.1 := fun h => hkcT (h ▸ ht)
      set g2 := (g.addKwNode kc.1).addEdge t kc.1 ⟨kc.2, sec⟩ with hg2
      have htype2 : g2.typeOf t = some NodeType.publication := by
        rw [hg2, typeOf_addEdge, typeOf_addKwNode_other _ _ _ htk]
        exact htype
      have hinv2 : bipartiteInv T g2 := by
        intro e he
        rcases mem_edges_addEdge _ _ _ _ _ he with ⟨e', he', hkey⟩ | rfl
        · rw [edges_addKwNode] at he'
          obtain ⟨h1, h2, h3, h4, h5⟩ := hg e' he'
          rw [hkey]
          refine ⟨h1, ?_, h3, ?_, h5⟩
          · have hne : e'.1.1 ≠ kc.1 := fun h => hkcT (h ▸ h1)
            rw [hg2, typeOf_addEdge, typeOf_addKwNode_other _ _ _ hne]
            exact h2
          · by_cases hx : e'.1.2 = kc.1
            · rw [hg2, typeOf_addEdge, hx, typeOf_addKwNode_self]
            · rw [hg2, typeOf_addEdge, typeOf_addKwNode_other _ _ _ hx]
              exact h4
        · refine ⟨ht, htype2, hkcT, ?_, hlen⟩
          rw [hg2, typeOf_addEdge, typeOf_addKwNode_self]
      exact ih g2 htype2 (fun kc' h h' => hkws kc' (by simp [h]) h') hinv2
    · rw [if_neg hlen]
      exact ih g htype (fun kc' h h' => hkws kc' (by simp [h]) h') hg

theorem bipartiteInv_processPub (T : List String) (stop : List String)
    (themesOf : String → Doc → List String) (g : Graph) (t u : String)
    (doc : Doc) (ht : t ∈ T)
    (hkw : ∀ k ∈ docKeywordTerms stop doc, k ∉ T)
    (hg : bipartiteInv T g) :
    bipartiteInv T (processPub stop themesOf g t u doc) := by
  rw [processPub]
  have inv0 : bipartiteInv T (g.addPubNode t u (themesOf t doc)) := by
    intro e he
    rw [edges_addPubNode] at he
    obtain ⟨h1, h2, h3, h4, h5⟩ := hg e he
    refine ⟨h1, ?_, h3, ?_, h5⟩
    · by_cases hx : e.1.1 = t
      · rw [hx]
        exact typeOf_addPubNode_self ..
      · rw [typeOf_addPubNode_other _ _ _ _ _ hx]
        exact h2
    · have hx : e.1.2 ≠ t := fun h => h3 (h ▸ ht)
      rw [typeOf_addPubNode_other _ _ _ _ _ hx]
      exact h4
  have habsKw : ∀ kc ∈ extract_keywords stop doc.abstract 10,
      3 < kc.1.length → kc.1 ∉ T := by
    intro kc hkc hlen
    apply hkw
    rw [docKeywordTerms]
    exact List.mem_map.mpr ⟨kc, List.mem_filter.mpr
      ⟨List.mem_append.mpr (Or.inl hkc), by simpa using hlen⟩, rfl⟩
  have hconKw : ∀ kc ∈ extract_keywords stop doc.conclusion 10,
      3 < kc.1.length → kc.1 ∉ T := by
    intro kc hkc hlen
    apply hkw
    rw [docKeywordTerms]
    exact List.mem_map.mpr ⟨kc, List.mem_filter.mpr
      ⟨List.mem_append.mpr (Or.inr hkc), by simpa using hlen⟩, rfl⟩
  obtain ⟨inv1, htype1⟩ := bipartiteInv_addSectionKeywords T _ t
    (extract_keywords stop doc.abstract 10) "abstract" ht
    (typeOf_addPubNode_self ..) habsKw inv0
  exact (bipartiteInv_addSectionKeywords T _ t
    (extract_keywords stop doc.conclusion 10) "conclusion" ht htype1 hconKw inv1).1

theorem bipartiteInv_build (stop : List String)
    (themesOf : String → Doc → List String) (fetch : String → Doc)
    (T : List String) (rows : List (String × String)) (g : Graph)
    (hrows : ∀ r ∈ rows, r.1 ∈ T ∧ ∀ k ∈ docKeywordTerms stop (fetch r.2), k ∉ T)
    (hg : bipartiteInv T g) :
    bipartiteInv T (rows.foldl
      (fun g pub => processPub stop themesOf g pub.1 pub.2 (fetch pub.2)) g) := by
  induction rows generalizing g with
  | nil => exact hg
  | cons r rs ih =>
    rw [List.foldl_cons]
    obtain ⟨h1, h2⟩ := hrows r (by simp)
    exact ih _ (fun r' hr' => hrows r' (by simp [hr']))
      (bipartiteInv_processPub T stop themesOf g r.1 r.2 (fetch r.2) h1 h2 hg)

/-- C2 (amended).  Provided no corpus title occurs among the keyword
terms extracted from any fetched document (the id-collision the source does
not guard against, and the only change the counterexample forces), every edge
of the built graph connects one publication-typed and one keyword-typed node,
and every keyword-typed endpoint has length greater than 3. -/
theorem c2_bipartite_amended (stop : List String)
    (themesOf : String → Doc → List String) (fetch : String → Doc)
    (corpus : List (String × String))
    (hcoll : ∀ p ∈ corpus, ∀ q ∈ corpus,
      p.1 ∉ docKeywordTerms stop (fetch q.2)) :
    edgesBipartite (build_knowledge_graph stop themesOf fetch corpus) ∧
    edgeKeywordsLong (build_knowledge_graph stop themesOf fetch corpus) := by
  have hinv : bipartiteInv (corpus.map Prod.fst)
      (build_knowledge_graph stop themesOf fetch corpus) := by
    rw [build_knowledge_graph]
    apply bipartiteInv_build
    · intro r hr
      refine ⟨List.mem_map.mpr ⟨r, hr, rfl⟩, ?_⟩
      intro k hk hkT
      rcases List.mem_map.mp hkT with ⟨p, hp, hpk⟩
      exact hcoll p hp r hr (hpk ▸ hk)
    · intro e he
      simp [Graph.empty] at he
  constructor
  · intro e he
    obtain ⟨_, h2, _, h4, _⟩ := hinv e he
    exact Or.inl ⟨h2, h4⟩
  · intro e he
    obtain ⟨_, h2, _, h4, h5⟩ := hinv e he
    refine ⟨?_, fun _ => h5⟩
    intro hk
    rw [h2] at hk
    simp at hk

/-- Content store for the C2 witness: an abstract with two keyword terms,
neither equal to the (multi-word) publication title. -/
def c2wFetch : String → Doc := fun _ => { abstract := "cells cells growth" }

/-- Witness for the amended C2 at a concrete collision-free corpus. -/
theorem c2_bipartite_amended_witness :
    (∀ p ∈ [("Plant Growth Study", "u1")], ∀ q ∈ [("Plant Growth Study", "u1")],
      p.1 ∉ docKeywordTerms basic_stop_words (c2wFetch q.2)) ∧
    (edgesBipartite (build_knowledge_graph basic_stop_words (fun _ _ => [])
        c2wFetch [("Plant Growth Study", "u1")]) ∧
     edgeKeywordsLong (build_knowledge_graph basic_stop_words (fun _ _ => [])
        c2wFetch [("Plant Growth Study", "u1")])) :=
  ⟨by decide, c2_bipartite_amended basic_stop_words (fun _ _ => []) c2wFetch
    [("Plant Growth Study", "u1")] (by decide)⟩

/-! ## C5: get_similar_publications -/

/-- `get_similar_publications(title, n)`: empty if the title is not a node;
otherwise tally, over the publication's keyword neighbors, the publication
neighbors other than the title itself (a Python dict keyed in first-bump
order), sort by shared-keyword count descending (Python `sorted` is stable)
and keep the first `n`. -/
def get_similar_publications (g : Graph) (title : String) (n : Nat) :
    List (String × Nat) :=
  if !(g.nodes.any (·.1 = title)) then []
  else
    let keywords := (g.neighbors title).filter
      (fun v => g.typeOf v = some NodeType.keyword)
    let cands := keywords.flatMap (fun k => (g.neighbors k).filter
      (fun v => v ≠ title && g.typeOf v = some NodeType.publication))
    (sortKeyDesc Prod.snd (counterOf cands)).take n

/-- The keys of `counterOf l` all occur in `l`. -/
theorem counterOf_keys_mem (l : List String) (p : String × Nat)
    (hp : p ∈ counterOf l) : p.1 ∈ l := by
  rw [counterOf] at hp
  have main : ∀ (xs : List String) (acc : List (String × Nat)),
      ∀ q ∈ xs.foldl (fun acc w =>
        if acc.any (·.1 = w) then
          acc.map (fun p => if p.1 = w then (p.1, p.2 + 1) else p)
        else acc ++ [(w, 1)]) acc,
      q.1 ∈ acc.map Prod.fst ∨ q.1 ∈ xs := by
    intro xs
    induction xs with
    | nil =>
      intro acc q hq
      exact Or.inl (List.mem_map.mpr ⟨q, hq, rfl⟩)
    | cons w ws ih =>
      intro acc q hq
      rw [List.foldl_cons] at hq
      rcases ih _ q hq with hk | hk
      · by_cases hex : acc.any (·.1 = w)
        · rw [if_pos hex] at hk
          rcases List.mem_map.mp hk with ⟨r, hr, hrq⟩
          rcases List.mem_map.mp hr with ⟨r', hr', hrr⟩
          left
          refine List.mem_map.mpr ⟨r', hr', ?_⟩
          by_cases hw : r'.1 = w
          · rw [if_pos hw] at hrr
            rw [← hrq, ← hrr]
          · rw [if_neg hw] at hrr
            rw [← hrq, ← hrr]
        · rw [if_neg hex] at hk
          rcases List.mem_map.mp hk with ⟨r, hr, hrq⟩
          rcases List.mem_append.mp hr with hr | hr
          · exact Or.inl (hrq ▸ List.mem_map.mpr ⟨r, hr, rfl⟩)
          · right
            simp only [List.mem_singleton] at hr
            rw [← hrq, hr]
            simp
      · exact Or.inr (by simp [hk])
  rcases main l [] p hp with h | h
  · simp at h
  · exact h

/-- C5.  `get_similar_publications(title, n)` never lists the queried
title itself, and its shared-keyword counts are non-increasing from first to
last. -/
theorem c5_similar_publications (g : Graph) (title : String) (n : Nat) :
    (∀ p ∈ get_similar_publications g title n, p.1 ≠ title) ∧
    (get_similar_publications g title n).Pairwise (fun a b => b.2 ≤ a.2) := by
  rw [get_similar_publications]
  by_cases habs : g.nodes.any (·.1 = title)
  · simp only [habs, Bool.not_true, Bool.false_eq_true, if_false]
    constructor
    · intro p hp
      have hp1 : p ∈ sortKeyDesc Prod.snd (counterOf _) := List.mem_of_mem_take hp
      have hp2 := (mem_sortKeyDesc Prod.snd _ p).mp hp1
      have hp3 := counterOf_keys_mem _ p hp2
      rcases List.mem_flatMap.mp hp3 with ⟨k, _, hmem⟩
      have := List.of_mem_filter hmem
      simp only [Bool.and_eq_true, decide_eq_true_eq] at this
      exact this.1
    · exact List.Pairwise.sublist (List.take_sublist ..)
        (pairwise_sortKeyDesc Prod.snd _)
  · simp only [habs, Bool.not_false, if_true]
    exact ⟨by simp, by simp⟩

/-- Concrete graph for the C5 witness: two publications sharing a keyword. -/
def c5Graph : Graph :=
  ⟨[("P1", ⟨.publication, some "u1", none⟩),
    ("kword", ⟨.keyword, none, none⟩),
    ("P2", ⟨.publication, some "u2", none⟩)],
   [(("P1", "kword"), ⟨1, "abstract"⟩), (("P2", "kword"), ⟨2, "abstract"⟩)]⟩

/-- Witness for C5 at a concrete graph and query. -/
theorem c5_similar_publications_witness :
    (∀ p ∈ get_similar_publications c5Graph "P1" 5, p.1 ≠ "P1") ∧
    (get_similar_publications c5Graph "P1" 5).Pairwise (fun a b => b.2 ≤ a.2) :=
  c5_similar_publications c5Graph "P1" 5

/-! ## Well-formedness of built graphs -/

theorem samePair_iff (p q : String × String) :
    samePair p q = true ↔ (p.1 = q.1 ∧ p.2 = q.2) ∨ (p.1 = q.2 ∧ p.2 = q.1) := by
  simp [samePair]

theorem samePair_refl (p : String × String) : samePair p p = true := by
  simp [samePair]

theorem samePair_symm (p q : String × String) (h : samePair p q = true) :
    samePair q p = true := by
  rw [samePair_iff] at h ⊢
  rcases h with ⟨h1, h2⟩ | ⟨h1, h2⟩
  · exact Or.inl ⟨h1.symm, h2.symm⟩
  · exact Or.inr ⟨h2.symm, h1.symm⟩

theorem samePair_trans (p q r : String × String) (h1 : samePair p q = true)
    (h2 : samePair q r = true) : samePair p r = true := by
  rw [samePair_iff] at h1 h2 ⊢
  rcases h1 with ⟨a1, a2⟩ | ⟨a1, a2⟩ <;> rcases h2 with ⟨b1, b2⟩ | ⟨b1, b2⟩
  · exact Or.inl ⟨a1.trans b1, a2.trans b2⟩
  · exact Or.inr ⟨a1.trans b1, a2.trans b2⟩
  · exact Or.inr ⟨a1.trans b2, a2.trans b1⟩
  · exact Or.inl ⟨a1.trans b2, a2.trans b1⟩

theorem perm_insertKeyDesc {α β : Type} [LinearOrder β] (key : α → β) (x : α)
    (l : List α) : List.Perm (insertKeyDesc key x l) (x :: l) := by
  induction l with
  | nil => rfl
  | cons y ys ih =>
    by_cases h : key y < key x
    · rw [insertKeyDesc, if_pos h]
    · rw [insertKeyDesc, if_neg h]
      exact (List.Perm.cons y ih).trans (List.Perm.swap x y ys)

theorem perm_sortKeyDesc {α β : Type} [LinearOrder β] (key : α → β)
    (l : List α) : List.Perm (sortKeyDesc key l) l := by
  rw [sortKeyDesc]
  have main : ∀ (xs acc : List α),
      List.Perm (xs.foldl (fun acc x => insertKeyDesc key x acc) acc) (acc ++ xs) := by
    intro xs
    induction xs with
    | nil => intro acc; simp
    | cons x xs ih =>
      intro acc
      rw [List.foldl_cons]
      refine (ih _).trans ?_
      have h1 : List.Perm (insertKeyDesc key x acc ++ xs) ((x :: acc) ++ xs) :=
        (perm_insertKeyDesc key x acc).append_right xs
      refine h1.trans ?_
      simpa using (@List.perm_append_comm _ [x] acc).append_right xs
  simpa using main l []

/-- The keys produced by `counterOf` are pairwise distinct. -/
theorem counterOf_keys_pairwise (l : List String) :
    (counterOf l).Pairwise (fun a b => a.1 ≠ b.1) := by
  rw [counterOf]
  have main : ∀ (xs : List String) (acc : List (String × Nat)),
      acc.Pairwise (fun a b => a.1 ≠ b.1) →
      (xs.foldl (fun acc w =>
        if acc.any (·.1 = w) then
          acc.map (fun p => if p.1 = w then (p.1, p.2 + 1) else p)
        else acc ++ [(w, 1)]) acc).Pairwise (fun a b => a.1 ≠ b.1) := by
    intro xs
    induction xs with
    | nil => intro acc h; simpa using h
    | cons w ws ih =>
      intro acc h
      rw [List.foldl_cons]
      apply ih
      by_cases hex : acc.any (·.1 = w)
      · rw [if_pos hex]
        have : ∀ p : String × Nat,
            ((fun p => if p.1 = w then (p.1, p.2 + 1) else p) p).1 = p.1 := by
          intro p
          by_cases hp : p.1 = w <;> simp [hp]
        refine List.Pairwise.map _ ?_ h
        intro a b hab
        rw [this a, this b]
        exact hab
      · rw [if_neg hex]
        rw [List.pairwise_append]
        refine ⟨h, by simp, ?_⟩
        intro a ha b hb
        simp only [List.mem_singleton] at hb
        subst hb
        simp only [List.any_eq_true, not_exists] at hex
        have := hex a
        simp only [decide_eq_true_eq] at this
        exact fun hh => this ⟨ha, by simpa using hh⟩
  exact main l [] (by simp)

/-- The keyword keys returned by `extract_keywords` are pairwise distinct. -/
theorem extract_keywords_keys_pairwise (stop : List String) (text : String)
    (n : Nat) :
    (extract_keywords stop text n).Pairwise (fun a b => a.1 ≠ b.1) := by
  have hsym : Symmetric (fun a b : String × Nat => a.1 ≠ b.1) :=
    fun a b hab => hab.symm
  have base : ∀ l : List String,
      (most_common (counterOf l) n).Pairwise (fun a b => a.1 ≠ b.1) := by
    intro l
    rw [most_common]
    refine List.Pairwise.sublist (List.take_sublist ..) ?_
    rw [(perm_sortKeyDesc Prod.snd (counterOf l)).pairwise_iff
      (fun h => Ne.symm h)]
    exact counterOf_keys_pairwise l
  rw [extract_keywords]
  by_cases htext : text = ""
  · simp [htext]
  · rw [if_neg htext]
    exact base _

/-- Well-formed graph: node keys pairwise distinct, and no two stored edges
share an unordered endpoint pair.  Every graph the build produces is
well-formed. -/
def Graph.WF (g : Graph) : Prop :=
  g.nodes.Pairwise (fun p q => p.1 ≠ q.1) ∧
  g.edges.Pairwise (fun e f => ¬ samePair e.1 f.1 = true)

theorem WF_empty : Graph.empty.WF :=
  ⟨by simp [Graph.empty], by simp [Graph.empty]⟩

theorem WF_upsertNode (g : Graph) (k : String) (init : NodeAttrs)
    (upd : NodeAttrs → NodeAttrs) (h : g.WF) : (upsertNode g k init upd).WF := by
  obtain ⟨hn, he⟩ := h
  constructor
  · rw [upsertNode]
    by_cases hex : g.nodes.any (·.1 = k)
    · rw [if_pos hex]
      refine List.Pairwise.map _ ?_ hn
      intro a b hab
      by_cases ha : a.1 = k <;> by_cases hb : b.1 = k
      · exact absurd (ha.trans hb.symm) hab
      · simp only [if_pos ha, if_neg hb]
        exact fun hh => hb hh.symm
      · simp only [if_neg ha, if_pos hb]
        exact ha
      · simp only [if_neg ha, if_neg hb]
        exact hab
    · rw [if_neg hex]
      rw [List.pairwise_append]
      refine ⟨hn, by simp, ?_⟩
      intro a ha b hb
      simp only [List.mem_singleton] at hb
      subst hb
      simp only [List.any_eq_true, not_exists] at hex
      have := hex a
      simp only [decide_eq_true_eq] at this
      exact fun hh => this ⟨ha, by simpa using hh⟩
  · rw [edges_upsertNode]
    exact he

theorem WF_addEdge (g : Graph) (u v : String) (a : EdgeAttrs) (h : g.WF) :
    (g.addEdge u v a).WF := by
  obtain ⟨hn, he⟩ := h
  constructor
  · rw [nodes_addEdge]
    exact hn
  · rw [Graph.addEdge]
    by_cases hex : g.edges.any (fun e => samePair e.1 (u, v))
    · rw [if_pos hex]
      refine List.Pairwise.map _ ?_ he
      intro e f hef
      by_cases hme : samePair e.1 (u, v) <;> by_cases hmf : samePair f.1 (u, v) <;>
        simp only [if_pos, if_neg, hme, hmf, if_true, if_false] <;> exact hef
    · rw [if_neg hex]
      rw [List.pairwise_append]
      refine ⟨he, by simp, ?_⟩
      intro e hee f hf
      simp only [List.mem_singleton] at hf
      subst hf
      simp only [List.any_eq_true, not_exists] at hex
      have := hex e
      exact fun hh => this ⟨hee, hh⟩

theorem WF_addSectionKeywords (g : Graph) (t : String)
    (kws : List (String × Nat)) (sec : String) (h : g.WF) :
    (addSectionKeywords g t kws sec).WF := by
  induction kws generalizing g with
  | nil => exact h
  | cons kc rest ih =>
    rw [addSectionKeywords, List.foldl_cons, ← addSectionKeywords]
    by_cases hlen : 3 < kc.1.length
    · rw [if_pos hlen]
      exact ih _ (WF_addEdge _ _ _ _ (WF_upsertNode _ _ _ _ h))
    · rw [if_neg hlen]
      exact ih _ h

theorem WF_processPub (stop : List String)
    (themesOf : String → Doc → List String) (g : Graph) (t u : String)
    (doc : Doc) (h : g.WF) : (processPub stop themesOf g t u doc).WF := by
  rw [processPub]
  exact WF_addSectionKeywords _ _ _ _
    (WF_addSectionKeywords _ _ _ _ (WF_upsertNode _ _ _ _ h))

/-- Every graph produced by the build is well-formed: node keys are unique
and there is exactly one stored edge per unordered endpoint pair. -/
theorem WF_build (stop : List String) (themesOf : String → Doc → List String)
    (fetch : String → Doc) (corpus : List (String × String)) :
    (build_knowledge_graph stop themesOf fetch corpus).WF := by
  rw [build_knowledge_graph]
  have main : ∀ (rows : List (String × String)) (g : Graph), g.WF →
      (rows.foldl (fun g pub =>
        processPub stop themesOf g pub.1 pub.2 (fetch pub.2)) g).WF := by
    intro rows
    induction rows with
    | nil => intro g hg; exact hg
    | cons r rs ih =>
      intro g hg
      rw [List.foldl_cons]
      exact ih _ (WF_processPub _ _ _ _ _ _ hg)
  exact main corpus Graph.empty WF_empty

/-! ## Edge attribute lookup -/

/-- The attribute dicts stored in the graph for the unordered endpoint pair
`{u, v}` (a well-formed graph stores at most one). -/
def Graph.edgeAttrs (g : Graph) (u v : String) : List EdgeAttrs :=
  (g.edges.filter (fun e => samePair e.1 (u, v))).map Prod.snd

theorem edgeAttrs_upsertNode (g : Graph) (k : String) (init : NodeAttrs)
    (upd : NodeAttrs → NodeAttrs) (u v : String) :
    (upsertNode g k init upd).edgeAttrs u v = g.edgeAttrs u v := by
  rw [Graph.edgeAttrs, Graph.edgeAttrs, edges_upsertNode]

theorem filter_map_update_pair
    (l : List ((String × String) × EdgeAttrs)) (u v : String) (a : EdgeAttrs)
    (u' v' : String) (hne : ¬ samePair (u, v) (u', v') = true) :
    (l.map (fun e => if samePair e.1 (u, v) then (e.1, a) else e)).filter
      (fun e => samePair e.1 (u', v')) =
    l.filter (fun e => samePair e.1 (u', v')) := by
  induction l with
  | nil => rfl
  | cons e es ih =>
    rw [List.map_cons]
    by_cases hm : samePair e.1 (u, v)
    · have hfail : ¬ samePair e.1 (u', v') = true := fun hp =>
        hne (samePair_trans _ _ _ (samePair_symm _ _ hm) hp)
      rw [if_pos hm, List.filter_cons, List.filter_cons,
        if_neg (by simpa using hfail), if_neg (by simpa using hfail)]
      exact ih
    · rw [if_neg hm, List.filter_cons, List.filter_cons]
      by_cases hp : samePair e.1 (u', v')
      · rw [if_pos (by simpa using hp), if_pos (by simpa using hp), ih]
      · rw [if_neg (by simpa using hp), if_neg (by simpa using hp)]
        exact ih

theorem filter_map_update_pair_self
    (l : List ((String × String) × EdgeAttrs)) (u v : String) (a : EdgeAttrs)
    (hpw : l.Pairwise (fun e f => ¬ samePair e.1 f.1 = true))
    (hex : l.any (fun e => samePair e.1 (u, v)) = true) :
    ((l.map (fun e => if samePair e.1 (u, v) then (e.1, a) else e)).filter
      (fun e => samePair e.1 (u, v))).map Prod.snd = [a] := by
  induction l with
  | nil => simp at hex
  | cons e es ih =>
    rcases List.pairwise_cons.mp hpw with ⟨hhead, htail⟩
    rw [List.map_cons]
    by_cases hm : samePair e.1 (u, v)
    · rw [if_pos hm, List.filter_cons, if_pos (by simpa using hm)]
      have hrest : (es.map (fun e => if samePair e.1 (u, v) then (e.1, a) else e)).filter
          (fun e => samePair e.1 (u, v)) = [] := by
        rw [List.filter_eq_nil_iff]
        intro x hx
        rcases List.mem_map.mp hx with ⟨e', he', hfe⟩
        have hkey : x.1 = e'.1 := by
          by_cases h' : samePair e'.1 (u, v)
          · rw [if_pos h'] at hfe
            rw [← hfe]
          · rw [if_neg h'] at hfe
            rw [← hfe]
        rw [hkey]
        intro hx'
        exact hhead e' he'
          (samePair_trans _ _ _ hm (samePair_symm _ _ (by simpa using hx')))
      rw [hrest]
      rfl
    · rw [if_neg hm, List.filter_cons, if_neg (by simpa using hm)]
      have hex' : es.any (fun e => samePair e.1 (u, v)) = true := by
        rcases List.any_eq_true.mp hex with ⟨x, hx, hxp⟩
        rcases List.mem_cons.mp hx with rfl | hx
        · exact absurd hxp (by simpa using hm)
        · exact List.any_eq_true.mpr ⟨x, hx, hxp⟩
      exact ih htail hex'

theorem edgeAttrs_addEdge_same (g : Graph) (u v : String) (a : EdgeAttrs)
    (hpw : g.edges.Pairwise (fun e f => ¬ samePair e.1 f.1 = true)) :
    (g.addEdge u v a).edgeAttrs u v = [a] := by
  rw [Graph.addEdge]
  by_cases hex : g.edges.any (fun e => samePair e.1 (u, v))
  · rw [if_pos hex, Graph.edgeAttrs]
    exact filter_map_update_pair_self _ _ _ _ hpw hex
  · rw [if_neg hex, Graph.edgeAttrs]
    have h1 : g.edges.filter (fun e => samePair e.1 (u, v)) = [] := by
      rw [List.filter_eq_nil_iff]
      intro x hx hx'
      simp only [List.any_eq_true, not_exists] at hex
      exact hex x ⟨hx, by simpa using hx'⟩
    show ((g.edges ++ [((u, v), a)]).filter (fun e => samePair e.1 (u, v))).map
      Prod.snd = [a]
    rw [List.filter_append, h1]
    simp [samePair_refl]

theorem edgeAttrs_addEdge_other (g : Graph) (u v : String) (a : EdgeAttrs)
    (u' v' : String) (hne : ¬ samePair (u, v) (u', v') = true) :
    (g.addEdge u v a).edgeAttrs u' v' = g.edgeAttrs u' v' := by
  rw [Graph.addEdge]
  by_cases hex : g.edges.any (fun e => samePair e.1 (u, v))
  · rw [if_pos hex, Graph.edgeAttrs, Graph.edgeAttrs]
    show ((g.edges.map (fun e => if samePair e.1 (u, v) then (e.1, a) else e)).filter
        (fun e => samePair e.1 (u', v'))).map Prod.snd = _
    rw [filter_map_update_pair _ _ _ _ _ _ hne]
  · rw [if_neg hex, Graph.edgeAttrs, Graph.edgeAttrs]
    show ((g.edges ++ [((u, v), a)]).filter (fun e => samePair e.1 (u', v'))).map
      Prod.snd = _
    rw [List.filter_append]
    have h2 : [((u, v), a)].filter (fun e => samePair e.1 (u', v')) = [] := by
      rw [List.filter_eq_nil_iff]
      intro x hx
      simp only [List.mem_singleton] at hx
      subst hx
      simpa using hne
    rw [h2, List.append_nil]

/-! ## C8: conclusion write overwrites the abstract write -/

/-- Whether processing a corpus row with title `t` and fetched document `doc`
writes (inserts or overwrites) the undirected edge pair `pr` during the
build. -/
def writesPair (stop : List String) (t : String) (doc : Doc)
    (pr : String × String) : Prop :=
  ∃ k ∈ docKeywordTerms stop doc, samePair (t, k) pr = true

instance (stop : List String) (t : String) (doc : Doc) (pr : String × String) :
    Decidable (writesPair stop t doc pr) := by
  unfold writesPair
  exact inferInstance

/-- A section keyword loop that writes no edge with pair `(u,v)` leaves the
stored attributes of that pair unchanged. -/
theorem edgeAttrs_addSectionKeywords_other (g : Graph) (t : String)
    (kws : List (String × Nat)) (sec : String) (u v : String)
    (h : ∀ kc ∈ kws, 3 < kc.1.length → ¬ samePair (t, kc.1) (u, v) = true) :
    (addSectionKeywords g t kws sec).edgeAttrs u v = g.edgeAttrs u v := by
  induction kws generalizing g with
  | nil => rfl
  | cons kc rest ih =>
    rw [addSectionKeywords, List.foldl_cons, ← addSectionKeywords]
    by_cases hlen : 3 < kc.1.length
    · rw [if_pos hlen]
      rw [ih _ (fun kc' h' h'' => h kc' (by simp [h']) h'')]
      rw [edgeAttrs_addEdge_other _ _ _ _ _ _ (h kc (by simp) hlen)]
      rw [Graph.addKwNode, edgeAttrs_upsertNode]
    · rw [if_neg hlen]
      exact ih _ (fun kc' h' h'' => h kc' (by simp [h']) h'')

/-- Processing a section keyword list containing `(term, c)` (with pairwise
distinct keys, as `extract_keywords` produces) leaves the pair `(t, term)`
holding exactly the attributes `{weight := c, section := sec}`. -/
theorem edgeAttrs_addSectionKeywords_write (g : Graph) (t : String)
    (kws : List (String × Nat)) (sec : String) (term : String) (c : Nat)
    (hwf : g.WF) (hkeys : kws.Pairwise (fun a b => a.1 ≠ b.1))
    (hmem : (term, c) ∈ kws) (hlen : 3 < term.length) :
    (addSectionKeywords g t kws sec).edgeAttrs t term = [⟨c, sec⟩] := by
  induction kws generalizing g with
  | nil => simp at hmem
  | cons kc rest ih =>
    rw [addSectionKeywords, List.foldl_cons, ← addSectionKeywords]
    rcases List.mem_cons.mp hmem with heq | hmem'
    · subst heq
      rw [if_pos hlen]
      have hwf1 : (g.addKwNode term).WF := WF_upsertNode _ _ _ _ hwf
      have h2 : ((g.addKwNode term).addEdge t term ⟨c, sec⟩).edgeAttrs t term =
          [⟨c, sec⟩] := edgeAttrs_addEdge_same _ _ _ _ hwf1.2
      have hrest : ∀ kc' ∈ rest, 3 < kc'.1.length →
          ¬ samePair (t, kc'.1) (t, term) = true := by
        intro kc' hkc' _
        have hne : kc'.1 ≠ term := by
          rcases List.pairwise_cons.mp hkeys with ⟨hh, _⟩
          exact fun h => (hh kc' hkc') (by rw [h])
        intro hp
        rw [samePair_iff] at hp
        rcases hp with ⟨_, h2'⟩ | ⟨h1', h2'⟩
        · exact hne h2'
        · exact hne (h2'.trans h1')
      rw [edgeAttrs_addSectionKeywords_other _ _ _ _ _ _ hrest]
      exact h2
    · rcases List.pairwise_cons.mp hkeys with ⟨_, htail⟩
      by_cases hl : 3 < kc.1.length
      · rw [if_pos hl]
        exact ih _ (WF_addEdge _ _ _ _ (WF_upsertNode _ _ _ _ hwf)) htail hmem'
      · rw [if_neg hl]
        exact ih _ hwf htail hmem'

/-- Processing one corpus row whose document lists `(term, c)` among its
top-10 conclusion keywords (`term` longer than 3) ends with the pair
`(t, term)` carrying the conclusion write. -/
theorem edgeAttrs_processPub_conclusion (stop : List String)
    (themesOf : String → Doc → List String) (g : Graph) (t u : String)
    (doc : Doc) (term : String) (c : Nat) (hwf : g.WF)
    (hcon : (term, c) ∈ extract_keywords stop doc.conclusion 10)
    (hlen : 3 < term.length) :
    (processPub stop themesOf g t u doc).edgeAttrs t term =
      [⟨c, "conclusion"⟩] := by
  rw [processPub]
  exact edgeAttrs_addSectionKeywords_write _ _ _ _ _ _
    (WF_addSectionKeywords _ _ _ _ (WF_upsertNode _ _ _ _ hwf))
    (extract_keywords_keys_pairwise ..) hcon hlen

/-- A corpus row that does not write the pair `pr` leaves its stored edge
attributes unchanged. -/
theorem edgeAttrs_processPub_other (stop : List String)
    (themesOf : String → Doc → List String) (g : Graph) (t u : String)
    (doc : Doc) (u' v' : String)
    (hnw : ¬ writesPair stop t doc (u', v')) :
    (processPub stop themesOf g t u doc).edgeAttrs u' v' =
      g.edgeAttrs u' v' := by
  rw [processPub]
  have habs : ∀ kc ∈ extract_keywords stop doc.abstract 10,
      3 < kc.1.length → ¬ samePair (t, kc.1) (u', v') = true := by
    intro kc hkc hl hp
    exact hnw ⟨kc.1, List.mem_map.mpr ⟨kc, List.mem_filter.mpr
      ⟨List.mem_append.mpr (Or.inl hkc), by simpa using hl⟩, rfl⟩, hp⟩
  have hcon : ∀ kc ∈ extract_keywords stop doc.conclusion 10,
      3 < kc.1.length → ¬ samePair (t, kc.1) (u', v') = true := by
    intro kc hkc hl hp
    exact hnw ⟨kc.1, List.mem_map.mpr ⟨kc, List.mem_filter.mpr
      ⟨List.mem_append.mpr (Or.inr hkc), by simpa using hl⟩, rfl⟩, hp⟩
  rw [edgeAttrs_addSectionKeywords_other _ _ _ _ _ _ hcon,
    edgeAttrs_addSectionKeywords_other _ _ _ _ _ _ habs,
    Graph.addPubNode, edgeAttrs_upsertNode]

theorem edgeAttrs_foldl_other (stop : List String)
    (themesOf : String → Doc → List String) (fetch : String → Doc)
    (rows : List (String × String)) (g : Graph) (u' v' : String)
    (hrows : ∀ r ∈ rows, ¬ writesPair stop r.1 (fetch r.2) (u', v')) :
    ((rows.foldl (fun g pub =>
        processPub stop themesOf g pub.1 pub.2 (fetch pub.2)) g).edgeAttrs
      u' v') = g.edgeAttrs u' v' := by
  induction rows generalizing g with
  | nil => rfl
  | cons r rs ih =>
    rw [List.foldl_cons]
    rw [ih _ (fun r' hr' => hrows r' (by simp [hr']))]
    exact edgeAttrs_processPub_other _ _ _ _ _ _ _ _ (hrows r (by simp))

/-- Content store for the C8 counterexample. -/
def c8Fetch : String → Doc := fun u =>
  if u = "u1" then { abstract := "cells", conclusion := "cells cells" }
  else { abstract := "gravity gravity gravity" }

/-- Corpus in which a later publication is titled like a keyword of an
earlier one and re-writes the same undirected pair. -/
def c8Graph : Graph :=
  build_knowledge_graph basic_stop_words (fun _ _ => []) c8Fetch
    [("gravity", "u1"), ("cells", "u2")]

/-- C8 counterexample.  Publication "gravity" has "cells" in both its
abstract and conclusion top-10 keyword lists, so by the claim the final edge
("gravity","cells") should be `{weight 2, section "conclusion"}`.  But the
later publication titled "cells" extracts the keyword "gravity" from its own
abstract and `add_edge("cells","gravity")` overwrites the same undirected
pair, leaving `{weight 3, section "abstract"}`. -/
theorem c8_counterexample :
    ("cells", 2) ∈ extract_keywords basic_stop_words (c8Fetch "u1").conclusion 10 ∧
    "cells" ∈ (extract_keywords basic_stop_words (c8Fetch "u1").abstract 10).map Prod.fst ∧
    3 < "cells".length ∧
    c8Graph.edgeAttrs "gravity" "cells" = [⟨3, "abstract"⟩] ∧
    c8Graph.edgeAttrs "gravity" "cells" ≠ [⟨2, "conclusion"⟩] := by
  decide

/-- C8 (amended).  If a publication's abstract and conclusion top-10
keyword lists share a term longer than 3, the graph after the build holds a
single edge for that (title, term) pair tagged `section = "conclusion"` with
the conclusion frequency as weight — PROVIDED no later corpus row writes the
same undirected pair (the title/keyword collision of the counterexample, the
only change it forces). -/
theorem c8_conclusion_overwrite_amended (stop : List String)
    (themesOf : String → Doc → List String) (fetch : String → Doc)
    (pre post : List (String × String)) (t u term : String) (c : Nat)
    (habs : term ∈ (extract_keywords stop (fetch u).abstract 10).map Prod.fst)
    (hcon : (term, c) ∈ extract_keywords stop (fetch u).conclusion 10)
    (hlen : 3 < term.length)
    (hlater : ∀ r ∈ post, ¬ writesPair stop r.1 (fetch r.2) (t, term)) :
    (build_knowledge_graph stop themesOf fetch
        (pre ++ (t, u) :: post)).edgeAttrs t term = [⟨c, "conclusion"⟩] := by
  rw [build_knowledge_graph, List.foldl_append, List.foldl_cons]
  rw [edgeAttrs_foldl_other _ _ _ _ _ _ _ hlater]
  have hwfpre : (pre.foldl (fun g pub =>
      processPub stop themesOf g pub.1 pub.2 (fetch pub.2)) Graph.empty).WF := by
    have := WF_build stop themesOf fetch pre
    rw [build_knowledge_graph] at this
    exact this
  exact edgeAttrs_processPub_conclusion _ _ _ _ _ _ _ _ hwfpre hcon hlen

/-- Content store for the C8 witness. -/
def c8wFetch : String → Doc := fun _ =>
  { abstract := "cells cells roots", conclusion := "cells stems stems" }

/-- Witness for the amended C8 on a one-row corpus: "cells" is in both top-10
lists, no later row exists, and the final edge carries the conclusion data. -/
theorem c8_conclusion_overwrite_amended_witness :
    ("cells" ∈ (extract_keywords basic_stop_words
        (c8wFetch "u1").abstract 10).map Prod.fst) ∧
    (("cells", 1) ∈ extract_keywords basic_stop_words
        (c8wFetch "u1").conclusion 10) ∧
    3 < "cells".length ∧
    (∀ r ∈ ([] : List (String × String)),
      ¬ writesPair basic_stop_words r.1 (c8wFetch r.2) ("Plant Growth", "cells")) ∧
    (build_knowledge_graph basic_stop_words (fun _ _ => []) c8wFetch
        ([] ++ ("Plant Growth", "u1") :: [])).edgeAttrs "Plant Growth" "cells" =
      [⟨1, "conclusion"⟩] :=
  ⟨by decide, by decide, by decide, by simp,
    c8_conclusion_overwrite_amended basic_stop_words (fun _ _ => []) c8wFetch
      [] [] "Plant Growth" "u1" "cells" 1 (by decide) (by decide) (by decide)
      (by simp)⟩

/-! ## _text_matches (C3, C4) -/

/-- Python slice `s[:-n]`. -/
def pyDropRight (s : String) (n : Nat) : String :=
  ⟨s.data.take (s.data.length - n)⟩

/-- Python `s.endswith(suf)`. -/
def pyEndsWith (s suf : String) : Bool := decide (suf.data <:+ s.data)

/-- The per-query-word loop body of `_text_matches` in fuzzy mode: the
stemmed word is in the text's stemmed token set, or — words of length ≤ 3 —
a whole-word occurrence of the literal word, or — longer words — a
whole-word occurrence of the word, word+"s", word[:-1] (when it ends in
"s"), word[:-2] (when it ends in "es"), or word[:-3]+"y" (when it ends in
"ies").  The Porter stemmer is NLTK's, passed in as `stem`. -/
def wordMatchesFuzzy (stem : String → String) (text : String)
    (text_stems : List String) (word : String) : Bool :=
  if text_stems.contains (stem word) then true
  else if word.length ≤ 3 then containsWholeWord text word
  else
    containsWholeWord text word || containsWholeWord text (word ++ "s") ||
    (pyEndsWith word "s" && containsWholeWord text (pyDropRight word 1)) ||
    (pyEndsWith word "es" && containsWholeWord text (pyDropRight word 2)) ||
    (pyEndsWith word "ies" && containsWholeWord text (pyDropRight word 3 ++ "y"))

/-- `_text_matches(text, query, exact_match)`: empty text never matches;
exact mode is Python `query in text`; fuzzy mode stems the text tokens once
(the `word_tokenize` attempt is modelled by the source's fallback
`text.lower().split()`) and requires every query word to pass
`wordMatchesFuzzy`. -/
def text_matches (stem : String → String) (text query : String)
    (exact_match : Bool) : Bool :=
  if text = "" then false
  else if exact_match then pyIn query text
  else
    (pySplit (pyLower query)).all
      (wordMatchesFuzzy stem text ((pySplit (pyLower text)).map stem))

/-- Section matching as `search_publications_full_text` performs it: the
query is lowercased once on entry, each section text is lowercased before
`_text_matches` is called. -/
def sectionMatches (stem : String → String) (text query : String)
    (exact_match : Bool) : Bool :=
  text_matches stem (pyLower text) (pyLower query) exact_match

theorem eq_empty_iff_data (s : String) : s = "" ↔ s.data = [] := by
  cases s with
  | mk d =>
    constructor
    · intro h
      rw [h]
    · intro h
      have hd : d = [] := by simpa using h
      subst hd
      rfl

theorem pyLower_eq_empty_iff (s : String) : pyLower s = "" ↔ s = "" := by
  rw [eq_empty_iff_data, eq_empty_iff_data, pyLower]
  simp

/-- C3 counterexample.  With both the section text and the query empty,
the empty query IS a contiguous substring of the empty text, yet
`_text_matches` returns False (its first line rejects empty text), so the
claimed "if and only if" fails. -/
theorem c3_counterexample :
    ¬ (sectionMatches (fun w => w) "" "" true = true ↔
        (pyLower "").data <:+: (pyLower "").data) := by
  decide

/-- C3 (amended).  Exact-mode section matching succeeds if and only if
the section text is non-empty AND the case-folded query is a contiguous
substring of the case-folded section text (the non-emptiness condition is
the only change the empty-text counterexample forces). -/
theorem c3_exact_match_amended (stem : String → String) (text query : String) :
    sectionMatches stem text query true = true ↔
      (text ≠ "" ∧ (pyLower query).data <:+: (pyLower text).data) := by
  rw [sectionMatches, text_matches]
  by_cases h : text = ""
  · rw [if_pos ((pyLower_eq_empty_iff text).mpr h)]
    simp [h]
  · rw [if_neg (fun hh => h ((pyLower_eq_empty_iff text).mp hh))]
    rw [if_pos rfl]
    rw [pyIn]
    simp [h]

/-- C4.  Fuzzy matching is conjunctive: a section matches only if every
whitespace-separated query word individually matches by stem membership,
whole-word occurrence, or (length > 3) one of the four suffix variations;
in particular the query "cell growth" does not match a section containing
only "cell" (given that the stemmer keeps "growth" and "cell" apart, as the
Porter stemmer does). -/
theorem c4_fuzzy_conjunctive (stem : String → String)
    (hstem : stem "growth" ≠ stem "cell") :
    (∀ text query : String, text_matches stem text query false = true →
      ∀ w ∈ pySplit (pyLower query),
        stem w ∈ (pySplit (pyLower text)).map stem ∨
        (w.length ≤ 3 ∧ containsWholeWord text w = true) ∨
        (3 < w.length ∧
          (containsWholeWord text w = true ∨
           containsWholeWord text (w ++ "s") = true ∨
           (pyEndsWith w "s" = true ∧
             containsWholeWord text (pyDropRight w 1) = true) ∨
           (pyEndsWith w "es" = true ∧
             containsWholeWord text (pyDropRight w 2) = true) ∨
           (pyEndsWith w "ies" = true ∧
             containsWholeWord text (pyDropRight w 3 ++ "y") = true)))) ∧
    text_matches stem "cell cell cell" "cell growth" false = false := by
  constructor
  · intro text query hmatch w hw
    rw [text_matches] at hmatch
    by_cases htext : text = ""
    · rw [if_pos htext] at hmatch
      exact absurd hmatch (by simp)
    · rw [if_neg htext] at hmatch
      have hall := List.all_eq_true.mp hmatch w hw
      rw [wordMatchesFuzzy] at hall
      by_cases h1 : ((pySplit (pyLower text)).map stem).contains (stem w)
      · left
        exact List.mem_of_elem_eq_true h1
      · rw [if_neg (by simpa using h1)] at hall
        by_cases h2 : w.length ≤ 3
        · rw [if_pos h2] at hall
          exact Or.inr (Or.inl ⟨h2, hall⟩)
        · rw [if_neg h2] at hall
          refine Or.inr (Or.inr ⟨lt_of_not_le h2, ?_⟩)
          simp only [Bool.or_eq_true, Bool.and_eq_true] at hall
          tauto
  · rw [text_matches]
    rw [if_neg (by decide : ¬ ("cell cell cell" : String) = "")]
    have hsplitq : pySplit (pyLower "cell growth") = ["cell", "growth"] := by
      decide
    have hsplitt : pySplit (pyLower "cell cell cell") =
        ["cell", "cell", "cell"] := by
      decide
    show (pySplit (pyLower "cell growth")).all
      (wordMatchesFuzzy stem "cell cell cell"
        ((pySplit (pyLower "cell cell cell")).map stem)) = false
    rw [hsplitq, hsplitt]
    have hg : wordMatchesFuzzy stem "cell cell cell"
        ([stem "cell", stem "cell", stem "cell"]) "growth" = false := by
      rw [wordMatchesFuzzy]
      have hc : ([stem "cell", stem "cell", stem "cell"] :
          List String).contains (stem "growth") = false := by
        simp only [List.contains_cons, List.contains_nil, Bool.or_false]
        simp [beq_iff_eq]
        exact hstem
      rw [if_neg (by rw [hc]; exact Bool.false_ne_true)]
      rw [if_neg (by decide : ¬ ("growth" : String).length ≤ 3)]
      decide
    simp only [List.map_cons, List.map_nil, List.all_cons, List.all_nil, hg]
    simp

/-- Witness for C4, instantiated at the identity stemmer (which, like the
Porter stemmer, keeps "growth" and "cell" apart). -/
theorem c4_fuzzy_conjunctive_witness :
    ((fun w : String => w) "growth" ≠ (fun w : String => w) "cell") ∧
    ((∀ text query : String,
        text_matches (fun w => w) text query false = true →
      ∀ w ∈ pySplit (pyLower query),
        (fun w : String => w) w ∈
            (pySplit (pyLower text)).map (fun w : String => w) ∨
        (w.length ≤ 3 ∧ containsWholeWord text w = true) ∨
        (3 < w.length ∧
          (containsWholeWord text w = true ∨
           containsWholeWord text (w ++ "s") = true ∨
           (pyEndsWith w "s" = true ∧
             containsWholeWord text (pyDropRight w 1) = true) ∨
           (pyEndsWith w "es" = true ∧
             containsWholeWord text (pyDropRight w 2) = true) ∨
           (pyEndsWith w "ies" = true ∧
             containsWholeWord text (pyDropRight w 3 ++ "y") = true)))) ∧
      text_matches (fun w => w) "cell cell cell" "cell growth" false = false) :=
  ⟨by decide, c4_fuzzy_conjunctive (fun w => w) (by decide)⟩

/-! ## C6: persistence round-trip (nx.node_link_data / json / nx.node_link_graph) -/

/-- JSON values as written by `json.dump(nx.node_link_data(G))` and read back
by `json.load`: strings, non-negative integers, booleans, arrays and
string-keyed objects.  Python's json round-trips these value forms exactly,
so the text layer is modelled by the value itself. -/
inductive JVal where
  | str : String → JVal
  | num : Nat → JVal
  | bool : Bool → JVal
  | arr : List JVal → JVal
  | obj : List (String × JVal) → JVal

def NodeType.toStr : NodeType → String
  | .publication => "publication"
  | .keyword => "keyword"

def NodeType.ofStr? (s : String) : Option NodeType :=
  if s = "publication" then some .publication
  else if s = "keyword" then some .keyword
  else none

/-- One entry of the `"nodes"` array: the node id plus every attribute key
present in the node's attribute dict. -/
def encodeNode (p : String × NodeAttrs) : JVal :=
  .obj ([("id", .str p.1), ("type", .str p.2.type.toStr)] ++
    (match p.2.url with
     | some u => [("url", .str u)]
     | none => []) ++
    (match p.2.themes with
     | some th => [("themes", .arr (th.map .str))]
     | none => []))

/-- One entry of the `"links"` array. -/
def encodeEdge (e : (String × String) × EdgeAttrs) : JVal :=
  .obj [("weight", .num e.2.weight), ("section", .str e.2.sectionTag),
        ("source", .str e.1.1), ("target", .str e.1.2)]

/-- `nx.node_link_data(G)`: the persisted form of the graph. -/
def node_link_data (g : Graph) : JVal :=
  .obj [("directed", .bool false), ("multigraph", .bool false),
        ("graph", .obj []),
        ("nodes", .arr (g.nodes.map encodeNode)),
        ("links", .arr (g.edges.map encodeEdge))]

def decodeStrList : List JVal → Option (List String)
  | [] => some []
  | .str s :: rest => (decodeStrList rest).map (s :: ·)
  | _ => none

def decodeNode (j : JVal) : Option (String × NodeAttrs) :=
  match j with
  | .obj fields =>
    match dictGet? fields "id", dictGet? fields "type" with
    | some (.str i), some (.str ty) =>
      match NodeType.ofStr? ty with
      | some t =>
        let url : Option String :=
          match dictGet? fields "url" with
          | some (.str u) => some u
          | _ => none
        match dictGet? fields "themes" with
        | some (.arr l) =>
          match decodeStrList l with
          | some th => some (i, ⟨t, url, some th⟩)
          | none => none
        | some _ => none
        | none => some (i, ⟨t, url, none⟩)
      | none => none
    | _, _ => none
  | _ => none

def decodeEdge (j : JVal) : Option ((String × String) × EdgeAttrs) :=
  match j with
  | .obj fields =>
    match dictGet? fields "source", dictGet? fields "target",
          dictGet? fields "weight", dictGet? fields "section" with
    | some (.str s), some (.str t), some (.num w), some (.str sec) =>
      some ((s, t), ⟨w, sec⟩)
    | _, _, _, _ => none
  | _ => none

def decodeNodes : List JVal → Option (List (String × NodeAttrs))
  | [] => some []
  | j :: rest =>
    match decodeNode j, decodeNodes rest with
    | some p, some ps => some (p :: ps)
    | _, _ => none

def decodeEdges : List JVal → Option (List ((String × String) × EdgeAttrs))
  | [] => some []
  | j :: rest =>
    match decodeEdge j, decodeEdges rest with
    | some e, some es => some (e :: es)
    | _, _ => none

/-- `G.add_node(id, **attrs)` during reconstruction: the full attribute dict
replaces any existing one. -/
def addNodeFull (g : Graph) (p : String × NodeAttrs) : Graph :=
  upsertNode g p.1 p.2 (fun _ => p.2)

/-- Rebuild a graph from decoded node and link entries the way
`nx.node_link_graph` does: `add_node` per node entry, then `add_edge` per
link entry. -/
def graphFromLists (nodes : List (String × NodeAttrs))
    (edges : List ((String × String) × EdgeAttrs)) : Graph :=
  edges.foldl (fun g e => g.addEdge e.1.1 e.1.2 e.2)
    (nodes.foldl addNodeFull Graph.empty)

/-- `nx.node_link_graph(json.load(...))`. -/
def node_link_graph (j : JVal) : Option Graph :=
  match j with
  | .obj fields =>
    match dictGet? fields "nodes", dictGet? fields "links" with
    | some (.arr ns), some (.arr ls) =>
      match decodeNodes ns, decodeEdges ls with
      | some nodes, some edges => some (graphFromLists nodes edges)
      | _, _ => none
    | _, _ => none
  | _ => none

theorem decodeStrList_map (l : List String) :
    decodeStrList (l.map JVal.str) = some l := by
  induction l with
  | nil => rfl
  | cons s rest ih =>
    rw [List.map_cons, decodeStrList, ih]
    rfl

theorem decodeNode_encodeNode (p : String × NodeAttrs) :
    decodeNode (encodeNode p) = some p := by
  obtain ⟨i, t, url, themes⟩ := p
  cases t <;> cases url <;> cases themes <;>
    simp [encodeNode, decodeNode, dictGet?, NodeType.toStr, NodeType.ofStr?,
      decodeStrList_map]

theorem decodeEdge_encodeEdge (e : (String × String) × EdgeAttrs) :
    decodeEdge (encodeEdge e) = some e := by
  obtain ⟨⟨u, v⟩, ⟨w, sec⟩⟩ := e
  rfl

theorem decodeNodes_map (l : List (String × NodeAttrs)) :
    decodeNodes (l.map encodeNode) = some l := by
  induction l with
  | nil => rfl
  | cons p ps ih =>
    rw [List.map_cons, decodeNodes, decodeNode_encodeNode, ih]

theorem decodeEdges_map (l : List ((String × String) × EdgeAttrs)) :
    decodeEdges (l.map encodeEdge) = some l := by
  induction l with
  | nil => rfl
  | cons e es ih =>
    rw [List.map_cons, decodeEdges, decodeEdge_encodeEdge, ih]

theorem foldl_addNodeFull (l : List (String × NodeAttrs)) (g : Graph)
    (hdis : ∀ p ∈ l, ¬ (g.nodes.any (·.1 = p.1) = true))
    (hpw : l.Pairwise (fun a b => a.1 ≠ b.1)) :
    l.foldl addNodeFull g = { g with nodes := g.nodes ++ l } := by
  induction l generalizing g with
  | nil => simp
  | cons p ps ih =>
    rw [List.foldl_cons]
    have hstep : addNodeFull g p = { g with nodes := g.nodes ++ [p] } := by
      rw [addNodeFull, upsertNode, if_neg (hdis p (by simp))]
    rw [hstep]
    rcases List.pairwise_cons.mp hpw with ⟨hh, ht⟩
    rw [ih _ ?_ ht]
    · simp
    · intro q hq
      simp only [List.any_eq_true, not_exists]
      intro x
      rintro ⟨hx, hxq⟩
      rcases List.mem_append.mp hx with hx | hx
      · have := hdis q (by simp [hq])
        simp only [List.any_eq_true, not_exists] at this
        exact this x ⟨hx, hxq⟩
      · simp only [List.mem_singleton] at hx
        subst hx
        exact hh q hq (by simpa using hxq)

theorem foldl_addEdgeFull (l : List ((String × String) × EdgeAttrs))
    (g : Graph)
    (hdis : ∀ e ∈ l, ¬ (g.edges.any (fun f => samePair f.1 e.1) = true))
    (hpw : l.Pairwise (fun e f => ¬ samePair e.1 f.1 = true)) :
    l.foldl (fun g e => g.addEdge e.1.1 e.1.2 e.2) g =
      { g with edges := g.edges ++ l } := by
  induction l generalizing g with
  | nil => simp
  | cons e es ih =>
    rw [List.foldl_cons]
    have hstep : g.addEdge e.1.1 e.1.2 e.2 = { g with edges := g.edges ++ [e] } := by
      rw [Graph.addEdge, if_neg (hdis e (by simp))]
    rw [hstep]
    rcases List.pairwise_cons.mp hpw with ⟨hh, ht⟩
    rw [ih _ ?_ ht]
    · simp
    · intro q hq
      simp only [List.any_eq_true, not_exists]
      intro x
      rintro ⟨hx, hxq⟩
      rcases List.mem_append.mp hx with hx | hx
      · have := hdis q (by simp [hq])
        simp only [List.any_eq_true, not_exists] at this
        exact this x ⟨hx, hxq⟩
      · simp only [List.mem_singleton] at hx
        subst hx
        exact hh q hq hxq

theorem graphFromLists_eq (g : Graph) (hwf : g.WF) :
    graphFromLists g.nodes g.edges = g := by
  rw [graphFromLists]
  rw [foldl_addNodeFull _ _ (by simp [Graph.empty]) hwf.1]
  rw [foldl_addEdgeFull _ _ (by simp [Graph.empty]) hwf.2]
  simp [Graph.empty]

/-- Round-trip through the persisted node-link form, for any well-formed
graph. -/
theorem node_link_roundtrip (g : Graph) (hwf : g.WF) :
    node_link_graph (node_link_data g) = some g := by
  rw [node_link_data, node_link_graph]
  show (match decodeNodes (g.nodes.map encodeNode),
             decodeEdges (g.edges.map encodeEdge) with
        | some nodes, some edges => some (graphFromLists nodes edges)
        | _, _ => none) = some g
  rw [decodeNodes_map, decodeEdges_map]
  show some (graphFromLists g.nodes g.edges) = some g
  rw [graphFromLists_eq g hwf]

/-- C6.  Serializing the graph built from any corpus to its persisted
node-link form and deserializing it back yields a graph whose node list,
edge list and all node and edge attributes are exactly the original's. -/
theorem c6_serialize_roundtrip (stop : List String)
    (themesOf : String → Doc → List String) (fetch : String → Doc)
    (corpus : List (String × String)) :
    node_link_graph (node_link_data
        (build_knowledge_graph stop themesOf fetch corpus)) =
      some (build_knowledge_graph stop themesOf fetch corpus) :=
  node_link_roundtrip _ (WF_build stop themesOf fetch corpus)

/-! ## C7: identify_research_clusters -/

/-- One saturation step toward a connected component: add every unvisited
neighbor of the current set. -/
def componentStep (g : Graph) (comp : List String) : List String :=
  comp ++ ((comp.flatMap g.neighbors).filter (fun w => !(comp.contains w))).dedup

/-- The connected component of `v` (`nx.connected_components` membership):
`|nodes|` saturation steps reach every node at any distance from `v`.
The order of nodes inside a component is iteration-order specific; nothing
below depends on it. -/
def componentOf (g : Graph) (v : String) : List String :=
  (List.range g.nodes.length).foldl (fun comp _ => componentStep g comp) [v]

/-- `list(nx.connected_components(G))`: one component per first unvisited
node, in node insertion order. -/
def connected_components (g : Graph) : List (List String) :=
  (g.nodes.map Prod.fst).foldl (fun comps v =>
    if comps.any (fun c => c.contains v) then comps
    else comps ++ [componentOf g v]) []

/-- A research cluster `(community_id, publications, themes)`. -/
structure Cluster where
  cid : Nat
  pubs : List String
  themes : List String
deriving DecidableEq, Repr

/-- Themes of one candidate cluster: top-5 keyword neighbors by tally over
the member publications; when none, top-5 title tokens (letters only,
length ≥ 3, lowercased, stop-word-filtered, kept only with positive count). -/
def componentThemes (stop : List String) (g : Graph)
    (publications : List String) : List String :=
  let keyword_counts := counterOf (publications.flatMap (fun pub =>
    (g.neighbors pub).filter (fun nb => g.typeOf nb = some NodeType.keyword)))
  let themes := (most_common keyword_counts 5).map Prod.fst
  if themes = [] then
    let all_words := publications.flatMap (fun pub =>
      ((alphaTokens 3 pub).map pyLower).filter (fun w => !(stop.contains w)))
    (((most_common (counterOf all_words) 5).filter (fun p => 0 < p.2)).map
      Prod.fst)
  else themes

/-- The candidate clusters before the merge pass: per connected component
(indexed in discovery order), its publication-typed members and themes,
components with no publications dropped, sorted by size descending. -/
def candidateClusters (stop : List String) (g : Graph) : List Cluster :=
  let comps := connected_components g
  let communities := comps.enum.filterMap (fun ic =>
    let publications := ic.2.filter
      (fun node => g.typeOf node = some NodeType.publication)
    if publications.isEmpty then none
    else some ⟨ic.1, publications, componentThemes stop g publications⟩)
  sortKeyDesc (fun c => c.pubs.length) communities

/-- The merge condition of the small-cluster pass: theme overlap, or either
side has no themes. -/
def mergeCond (s c : Cluster) : Bool :=
  s.themes.any (fun t => c.themes.contains t) ||
    s.themes.isEmpty || c.themes.isEmpty

/-- One iteration of the merge loop: scan the combined list in order, merge
the small cluster into the first match (keeping the target's id and themes,
concatenating publications); append it unchanged when nothing matches. -/
def mergeSmall : List Cluster → Cluster → List Cluster
  | [], s => [s]
  | c :: cs, s =>
    if mergeCond s c then ⟨c.cid, c.pubs ++ s.pubs, c.themes⟩ :: cs
    else c :: mergeSmall cs s

/-- The combine pass of `identify_research_clusters`: split the sorted
candidates into large (≥3 publications) and small clusters, merge each small
cluster into the first compatible element of the growing combined list, and,
when no large cluster exists, combine ≥2 smalls into one synthetic cluster
(id 1, set union of themes truncated to 5 — Python set iteration order
modelled as first-occurrence order; nothing below depends on it). -/
def mergeResult (cands : List Cluster) : List Cluster :=
  if (cands.filter (fun c => c.pubs.length < 3)).isEmpty then
    cands.filter (fun c => 3 ≤ c.pubs.length)
  else if !(cands.filter (fun c => 3 ≤ c.pubs.length)).isEmpty then
    (cands.filter (fun c => c.pubs.length < 3)).foldl mergeSmall
      (cands.filter (fun c => 3 ≤ c.pubs.length))
  else if 2 ≤ (cands.filter (fun c => c.pubs.length < 3)).length then
    [⟨1, (cands.filter (fun c => c.pubs.length < 3)).flatMap (·.pubs),
      ((cands.filter (fun c => c.pubs.length < 3)).flatMap
        (·.themes)).dedup.take 5⟩]
  else cands.filter (fun c => c.pubs.length < 3)

/-- `identify_research_clusters` (the deterministic connected-components
fallback path; the primary path depends on the external randomized
python-louvain partition but applies the identical merge pass): the combine
pass over the candidate clusters, sorted by publication count descending. -/
def identify_research_clusters (stop : List String) (g : Graph) :
    List Cluster :=
  sortKeyDesc (fun c => c.pubs.length) (mergeResult (candidateClusters stop g))

/-- Graph for the C7 counterexample: one component with three publications
sharing keyword "kalpha", one with a single publication on keyword "kbeta";
themes are disjoint and non-empty, so the merge pass leaves the small
cluster standalone. -/
def c7Graph : Graph :=
  ⟨[("P1", ⟨.publication, some "u1", none⟩),
    ("P2", ⟨.publication, some "u2", none⟩),
    ("P3", ⟨.publication, some "u3", none⟩),
    ("kalpha", ⟨.keyword, none, none⟩),
    ("P4", ⟨.publication, some "u4", none⟩),
    ("kbeta", ⟨.keyword, none, none⟩)],
   [(("P1", "kalpha"), ⟨1, "abstract"⟩), (("P2", "kalpha"), ⟨1, "abstract"⟩),
    (("P3", "kalpha"), ⟨1, "abstract"⟩), (("P4", "kbeta"), ⟨1, "abstract"⟩)]⟩

/-- C7 counterexample.  On `c7Graph` the returned list has two clusters
and the second holds a single publication: a small cluster whose themes are
disjoint from every large cluster's themes stays standalone, so "every
cluster has ≥ 3 publications unless exactly one cluster is returned" is
false.  (This is the spec's own §8 scenario: final sizes [3, 1].) -/
theorem c7_counterexample :
    ¬ ((identify_research_clusters basic_stop_words c7Graph).length = 1 ∨
       ∀ c ∈ identify_research_clusters basic_stop_words c7Graph,
         3 ≤ c.pubs.length) := by
  decide

/-- Every element of the merged list is an untouched input element, a grown
copy of the first matching element, or the small cluster appended after
matching nothing. -/
theorem mergeSmall_cases (lst : List Cluster) (s : Cluster) :
    ∀ x ∈ mergeSmall lst s,
      x ∈ lst ∨
      (∃ c ∈ lst, x = ⟨c.cid, c.pubs ++ s.pubs, c.themes⟩ ∧ mergeCond s c = true) ∨
      (x = s ∧ ∀ c ∈ lst, ¬ mergeCond s c = true) := by
  induction lst with
  | nil =>
    intro x hx
    simp only [mergeSmall, List.mem_singleton] at hx
    subst hx
    exact Or.inr (Or.inr ⟨rfl, by simp⟩)
  | cons c cs ih =>
    intro x hx
    rw [mergeSmall] at hx
    by_cases hm : mergeCond s c
    · rw [if_pos hm] at hx
      rcases List.mem_cons.mp hx with rfl | hx
      · exact Or.inr (Or.inl ⟨c, by simp, rfl, hm⟩)
      · exact Or.inl (by simp [hx])
    · rw [if_neg hm] at hx
      rcases List.mem_cons.mp hx with rfl | hx
      · exact Or.inl (by simp)
      · rcases ih x hx with h | ⟨c', hc', hx', hm'⟩ | ⟨hx', hall⟩
        · exact Or.inl (by simp [h])
        · exact Or.inr (Or.inl ⟨c', by simp [hc'], hx', hm'⟩)
        · refine Or.inr (Or.inr ⟨hx', ?_⟩)
          intro c'' hc''
          rcases List.mem_cons.mp hc'' with rfl | hc''
          · exact hm
          · exact hall c'' hc''

/-- Every input element's theme list survives the merge step on some
element. -/
theorem mergeSmall_preserves_themes (lst : List Cluster) (s : Cluster) :
    ∀ y ∈ lst, ∃ y' ∈ mergeSmall lst s, y'.themes = y.themes := by
  induction lst with
  | nil => simp
  | cons c cs ih =>
    intro y hy
    rw [mergeSmall]
    by_cases hm : mergeCond s c
    · rw [if_pos hm]
      rcases List.mem_cons.mp hy with rfl | hy
      · exact ⟨⟨y.cid, y.pubs ++ s.pubs, y.themes⟩, by simp, rfl⟩
      · exact ⟨y, by simp [hy], rfl⟩
    · rw [if_neg hm]
      rcases List.mem_cons.mp hy with rfl | hy
      · exact ⟨y, by simp, rfl⟩
      · rcases ih y hy with ⟨y', hy', ht⟩
        exact ⟨y', by simp [hy'], ht⟩

/-- Invariant of the merge fold: every sub-3 element of the working list has
non-empty themes disjoint from every large candidate's (non-empty) themes,
and every large candidate's theme list is still carried by some element. -/
def MergeInv (larges lst : List Cluster) : Prop :=
  (∀ x ∈ lst, x.pubs.length < 3 →
    x.themes ≠ [] ∧ ∀ lc ∈ larges, lc.themes ≠ [] ∧
      ∀ t ∈ x.themes, t ∉ lc.themes) ∧
  (∀ lc ∈ larges, ∃ y ∈ lst, y.themes = lc.themes)

theorem mergeCond_false_elim (s y : Cluster) (h : ¬ mergeCond s y = true) :
    s.themes ≠ [] ∧ y.themes ≠ [] ∧ ∀ t ∈ s.themes, t ∉ y.themes := by
  rw [mergeCond] at h
  simp only [Bool.or_eq_true, not_or, List.any_eq_true, not_exists,
    List.isEmpty_eq_true] at h
  obtain ⟨⟨hov, hse⟩, hce⟩ := h
  refine ⟨hse, hce, ?_⟩
  intro t ht htc
  exact hov t ⟨ht, by simpa using htc⟩

theorem mergeInv_step (larges : List Cluster) (hne : larges ≠ [])
    (lst : List Cluster) (s : Cluster) (h : MergeInv larges lst) :
    MergeInv larges (mergeSmall lst s) := by
  obtain ⟨h1, h2⟩ := h
  constructor
  · intro x hx hxlt
    rcases mergeSmall_cases lst s x hx with hx' | ⟨c, hc, hxeq, _⟩ | ⟨hxeq, hall⟩
    · exact h1 x hx' hxlt
    · have hclt : c.pubs.length < 3 := by
        rw [hxeq] at hxlt
        simp only [List.length_append] at hxlt
        omega
      obtain ⟨ht, hd⟩ := h1 c hc hclt
      rw [hxeq]
      exact ⟨ht, hd⟩
    · subst hxeq
      have hsne : x.themes ≠ [] := by
        obtain ⟨lc₀, hlc₀⟩ := List.exists_mem_of_ne_nil larges hne
        obtain ⟨y, hy, _⟩ := h2 lc₀ hlc₀
        exact (mergeCond_false_elim x y (hall y hy)).1
      refine ⟨hsne, ?_⟩
      intro lc hlc
      obtain ⟨y, hy, hyth⟩ := h2 lc hlc
      obtain ⟨_, hyne, hdis⟩ := mergeCond_false_elim x y (hall y hy)
      rw [← hyth]
      exact ⟨hyne, hdis⟩
  · intro lc hlc
    obtain ⟨y, hy, hyth⟩ := h2 lc hlc
    obtain ⟨y', hy', ht⟩ := mergeSmall_preserves_themes lst s y hy
    exact ⟨y', hy', ht.trans hyth⟩

theorem mergeInv_foldl (larges : List Cluster) (hne : larges ≠ [])
    (smalls lst : List Cluster) (h : MergeInv larges lst) :
    MergeInv larges (smalls.foldl mergeSmall lst) := by
  induction smalls generalizing lst with
  | nil => exact h
  | cons s ss ih =>
    rw [List.foldl_cons]
    exact ih _ (mergeInv_step larges hne lst s h)

theorem mergeResult_small (cands : List Cluster) (c : Cluster)
    (hc : c ∈ mergeResult cands) (hlt : c.pubs.length < 3) :
    (mergeResult cands).length = 1 ∨
    (c.themes ≠ [] ∧
      ∀ lc ∈ cands.filter (fun x => 3 ≤ x.pubs.length),
        lc.themes ≠ [] ∧ ∀ t ∈ c.themes, t ∉ lc.themes) := by
  by_cases hse : (cands.filter (fun c => c.pubs.length < 3)).isEmpty
  · rw [mergeResult, if_pos hse] at hc
    have := List.of_mem_filter hc
    simp only [decide_eq_true_eq] at this
    omega
  · by_cases hco : (cands.filter (fun c => 3 ≤ c.pubs.length)).isEmpty
    · rw [mergeResult, if_neg hse, if_neg (by simp [hco])] at hc ⊢
      by_cases h2 : 2 ≤ (cands.filter (fun c => c.pubs.length < 3)).length
      · rw [if_pos h2] at hc ⊢
        left
        rfl
      · rw [if_neg h2] at hc ⊢
        left
        have hne : cands.filter (fun c => c.pubs.length < 3) ≠ [] := by
          simpa [List.isEmpty_eq_true] using hse
        have : (cands.filter (fun c => c.pubs.length < 3)).length ≠ 0 := by
          simpa [List.length_eq_zero] using hne
        omega
    · rw [mergeResult, if_neg hse, if_pos (by simp [hco])] at hc
      have hne : cands.filter (fun x => 3 ≤ x.pubs.length) ≠ [] := by
        simpa [List.isEmpty_eq_true] using hco
      have hinv : MergeInv (cands.filter (fun x => 3 ≤ x.pubs.length))
          ((cands.filter (fun c => c.pubs.length < 3)).foldl mergeSmall
            (cands.filter (fun x => 3 ≤ x.pubs.length))) := by
        apply mergeInv_foldl _ hne
        constructor
        · intro x hx hxlt
          have := List.of_mem_filter hx
          simp only [decide_eq_true_eq] at this
          omega
        · intro lc hlc
          exact ⟨lc, hlc, rfl⟩
      exact Or.inr (hinv.1 c hc hlt)

/-- C7 (amended).  Every cluster returned by
`identify_research_clusters` has at least 3 publications, unless the
returned list has exactly one cluster, or the cluster is an unmerged small
cluster: its themes are non-empty and disjoint from the (non-empty) themes
of every large candidate cluster — the standalone case the counterexample
exhibits, and the only change it forces. -/
theorem c7_cluster_size_amended (stop : List String) (g : Graph)
    (c : Cluster) (hc : c ∈ identify_research_clusters stop g)
    (hlt : c.pubs.length < 3) :
    (identify_research_clusters stop g).length = 1 ∨
    (c.themes ≠ [] ∧
      ∀ lc ∈ (candidateClusters stop g).filter (fun x => 3 ≤ x.pubs.length),
        lc.themes ≠ [] ∧ ∀ t ∈ c.themes, t ∉ lc.themes) := by
  have hc' : c ∈ mergeResult (candidateClusters stop g) := by
    rw [identify_research_clusters] at hc
    exact (mem_sortKeyDesc _ _ _).mp hc
  have hlen : (identify_research_clusters stop g).length =
      (mergeResult (candidateClusters stop g)).length := by
    rw [identify_research_clusters]
    exact (perm_sortKeyDesc _ _).length_eq
  rcases mergeResult_small _ _ hc' hlt with h | h
  · left
    rw [hlen, h]
  · exact Or.inr h

/-- Witness for the amended C7: the standalone single-publication cluster of
`c7Graph` satisfies the hypotheses, and its themes are disjoint from the
large cluster's. -/
theorem c7_cluster_size_amended_witness :
    ((⟨1, ["P4"], ["kbeta"]⟩ : Cluster) ∈
        identify_research_clusters basic_stop_words c7Graph) ∧
    ((⟨1, ["P4"], ["kbeta"]⟩ : Cluster).pubs.length < 3) ∧
    ((identify_research_clusters basic_stop_words c7Graph).length = 1 ∨
     ((⟨1, ["P4"], ["kbeta"]⟩ : Cluster).themes ≠ [] ∧
      ∀ lc ∈ (candidateClusters basic_stop_words c7Graph).filter
          (fun x => 3 ≤ x.pubs.length),
        lc.themes ≠ [] ∧
          ∀ t ∈ (⟨1, ["P4"], ["kbeta"]⟩ : Cluster).themes, t ∉ lc.themes)) :=
  ⟨by decide, by decide,
    c7_cluster_size_amended basic_stop_words c7Graph ⟨1, ["P4"], ["kbeta"]⟩
      (by decide) (by decide)⟩

/-! ## C9: identify_publication_themes -/

/-- The stop-word-filtered tokens of the weighted combined section text
(abstract twice, conclusion twice, results once; tokens are alphabetic runs
of length ≥ 4, lowercased — the source's regex fallback tokenization, which
the NLTK branch matches on plain text). -/
def combinedTextTokens (stop : List String) (content : Doc) : List String :=
  (alphaTokens 4 (pyLower (content.abstract ++ " " ++ content.abstract ++ " " ++
    content.conclusion ++ " " ++ content.conclusion ++ " " ++
    content.results))).filter (fun w => !(stop.contains w))

/-- The stop-word-filtered tokens of the publication title (alphabetic runs
of length ≥ 3, lowercased). -/
def titleTokens (stop : List String) (title : String) : List String :=
  ((alphaTokens 3 title).map pyLower).filter (fun w => !(stop.contains w))

/-- The TF-IDF selection step of `identify_publication_themes`: from the
target document's score row (computed by scikit-learn's TfidfVectorizer, an
external collaborator — floats modelled as rationals), take the top
`2·num_themes` scores descending (numpy argsort; its tie order is
unspecified, modelled by the stable sort), keep those strictly above 0.1,
truncate to `num_themes`. -/
def tfidfThemes (num_themes : Nat) (scores : List (String × ℚ)) :
    List String :=
  ((((sortKeyDesc Prod.snd scores).take (num_themes * 2)).filter
    (fun p => (1 : ℚ)/10 < p.2)).take num_themes).map Prod.fst

/-- The pre-backfill theme list: TF-IDF selection when the text has more
than 10 filtered tokens and the comparison step succeeded (`tfidf = some
scores`; `none` models both "not enough comparison documents" and the
exception fallback), raw frequency otherwise.  In the ≤10-token branch the
source truncates to `min(len(word_freq), num_themes)`, which equals
truncation to `num_themes`. -/
def themesBase (stop : List String) (tfidf : Option (List (String × ℚ)))
    (content : Doc) (num_themes : Nat) : List String :=
  if 10 < (combinedTextTokens stop content).length then
    match tfidf with
    | some scores => tfidfThemes num_themes scores
    | none =>
      (most_common (counterOf (combinedTextTokens stop content))
        num_themes).map Prod.fst
  else
    (most_common (counterOf (combinedTextTokens stop content))
      num_themes).map Prod.fst

/-- Backfill from title-token frequencies when fewer than `num_themes`
themes were found. -/
def themesBackfill (num_themes : Nat) (title_words themes0 : List String) :
    List String :=
  if themes0.length < num_themes then
    themes0 ++ (most_common (counterOf title_words)
      (num_themes - themes0.length)).map Prod.fst
  else themes0

/-- The final "at least one theme" guard: an empty list becomes the first
title token when one exists. -/
def themesGuard (title_words themes1 : List String) : List String :=
  if themes1.isEmpty then
    match title_words with
    | w :: _ => [w]
    | [] => themes1
  else themes1

/-- `identify_publication_themes(publication_title, content, num_themes)`:
base selection, title backfill, non-emptiness guard, truncation. -/
def identify_publication_themes (stop : List String)
    (tfidf : Option (List (String × ℚ))) (publication_title : String)
    (content : Doc) (num_themes : Nat) : List String :=
  (themesGuard (titleTokens stop publication_title)
    (themesBackfill num_themes (titleTokens stop publication_title)
      (themesBase stop tfidf content num_themes))).take num_themes

theorem counterOf_length_pos (l : List String) (h : l ≠ []) :
    0 < (counterOf l).length := by
  have step_len : ∀ (acc : List (String × Nat)) (w : String),
      acc.length ≤ (if acc.any (·.1 = w) then
        acc.map (fun p => if p.1 = w then (p.1, p.2 + 1) else p)
      else acc ++ [(w, 1)]).length := by
    intro acc w
    by_cases hex : acc.any (·.1 = w)
    · rw [if_pos hex, List.length_map]
    · rw [if_neg hex, List.length_append]
      simp
  have mono : ∀ (xs : List String) (acc : List (String × Nat)),
      acc.length ≤ (xs.foldl (fun acc w =>
        if acc.any (·.1 = w) then
          acc.map (fun p => if p.1 = w then (p.1, p.2 + 1) else p)
        else acc ++ [(w, 1)]) acc).length := by
    intro xs
    induction xs with
    | nil => intro acc; exact le_refl _
    | cons w ws ih =>
      intro acc
      rw [List.foldl_cons]
      exact le_trans (step_len acc w) (ih _)
  cases l with
  | nil => exact absurd rfl h
  | cons w ws =>
    rw [counterOf, List.foldl_cons]
    have := mono ws [(w, 1)]
    simpa using lt_of_lt_of_le (by simp) this

theorem most_common_ne_nil (c : List (String × Nat)) (n : Nat)
    (hc : c ≠ []) (hn : 1 ≤ n) : most_common c n ≠ [] := by
  rw [most_common]
  have hlen : (sortKeyDesc Prod.snd c).length = c.length :=
    (perm_sortKeyDesc Prod.snd c).length_eq
  have hpos : 0 < c.length := List.length_pos.mpr hc
  intro hnil
  have := congrArg List.length hnil
  rw [List.length_take, hlen] at this
  simp only [List.length_nil] at this
  omega

/-- If every TF-IDF score is at most 0.1, the strict `> 0.1` filter discards
every candidate and the TF-IDF step yields no theme. -/
theorem tfidfThemes_all_low (n : Nat) (scores : List (String × ℚ))
    (h : ∀ p ∈ scores, p.2 ≤ 1/10) : tfidfThemes n scores = [] := by
  rw [tfidfThemes]
  have hfilter : (((sortKeyDesc Prod.snd scores).take (n * 2)).filter
      (fun p => (1 : ℚ)/10 < p.2)) = [] := by
    rw [List.filter_eq_nil_iff]
    intro p hp
    have hp' : p ∈ scores :=
      (mem_sortKeyDesc Prod.snd scores p).mp (List.mem_of_mem_take hp)
    simp only [decide_eq_true_eq, not_lt]
    exact h p hp'
  rw [hfilter]
  simp

/-- A model TF-IDF row in which one hundred terms tie at exactly 0.1: with
scikit-learn's default L2 normalization a document of 100 distinct terms of
equal count, all shared with the comparison abstract, scores 1/√100 = 0.1
on every term. -/
def c9Scores : List (String × ℚ) :=
  (List.range 100).map (fun i => ("term" ++ toString i, (1 : ℚ)/10))

/-- Document for the C9 counterexample: twelve filtered text tokens (the
abstract is weighted twice), so the `> 10` TF-IDF path is taken. -/
def c9Doc : Doc := { abstract := "alpha beta gamma delta epsil zeta" }

/-- C9 counterexample.  The combined text yields tokens but the title
yields none; the TF-IDF path runs and every score fails the strict `> 0.1`
filter, so the theme list comes back empty although the text produced
tokens — refuting both directions of the claim. -/
theorem c9_counterexample :
    combinedTextTokens basic_stop_words c9Doc ≠ [] ∧
    titleTokens basic_stop_words "" = [] ∧
    identify_publication_themes basic_stop_words (some c9Scores) "" c9Doc 5 = [] := by
  refine ⟨by decide, by decide, ?_⟩
  rw [identify_publication_themes]
  have hbase : themesBase basic_stop_words (some c9Scores) c9Doc 5 = [] := by
    rw [themesBase,
      if_pos (by decide : 10 < (combinedTextTokens basic_stop_words c9Doc).length)]
    apply tfidfThemes_all_low
    intro p hp
    rcases List.mem_map.mp hp with ⟨i, _, hi⟩
    rw [← hi]
  rw [hbase]
  have htitle : titleTokens basic_stop_words "" = [] := by decide
  rw [htitle]
  rfl

theorem themesBackfill_ne_nil_left (n : Nat) (tw t0 : List String)
    (h : t0 ≠ []) : themesBackfill n tw t0 ≠ [] := by
  rw [themesBackfill]
  by_cases hlen : t0.length < n
  · rw [if_pos hlen]
    simp [h]
  · rw [if_neg hlen]
    exact h

theorem themesGuard_ne_nil (tw t1 : List String) (h : t1 ≠ []) :
    themesGuard tw t1 = t1 := by
  rw [themesGuard.eq_def, if_neg (by simpa [List.isEmpty_eq_true] using h)]

theorem take_ne_nil_of_ne_nil (n : Nat) (l : List String) (hl : l ≠ [])
    (hn : 1 ≤ n) : l.take n ≠ [] := by
  intro hnil
  have := congrArg List.length hnil
  rw [List.length_take] at this
  simp only [List.length_nil] at this
  have := List.length_pos.mpr hl
  omega

/-- C9 (amended).  With `num_themes ≥ 1` (the source is called with 5):
the theme list is non-empty whenever the title yields a token; it is
non-empty whenever the text yields a token AND the TF-IDF comparison path is
skipped (≤ 10 tokens), unavailable or failed (frequency fallback), or
selects at least one term scoring above 0.1; and it is empty when neither
text nor title yields a token.  (The counterexample shows the one gap the
original claim missed: a successful TF-IDF run whose scores all fall at or
below 0.1, with a token-less title.) -/
theorem c9_themes_amended (stop : List String)
    (tfidf : Option (List (String × ℚ))) (title : String) (content : Doc)
    (n : Nat) (hn : 1 ≤ n) :
    (titleTokens stop title ≠ [] →
      identify_publication_themes stop tfidf title content n ≠ []) ∧
    (combinedTextTokens stop content ≠ [] →
      ((combinedTextTokens stop content).length ≤ 10 ∨ tfidf = none ∨
        (∃ scores, tfidf = some scores ∧ tfidfThemes n scores ≠ [])) →
      identify_publication_themes stop tfidf title content n ≠ []) ∧
    (combinedTextTokens stop content = [] → titleTokens stop title = [] →
      identify_publication_themes stop tfidf title content n = []) := by
  refine ⟨?_, ?_, ?_⟩
  · intro htw
    rw [identify_publication_themes]
    by_cases h0 : themesBase stop tfidf content n = []
    · rw [h0]
      have h1 : themesBackfill n (titleTokens stop title) [] =
          (most_common (counterOf (titleTokens stop title)) n).map Prod.fst := by
        rw [themesBackfill, if_pos (by simpa using hn)]
        simp
      rw [h1]
      have h2 : (most_common (counterOf (titleTokens stop title)) n).map
          Prod.fst ≠ [] := by
        intro hnil
        rw [List.map_eq_nil_iff] at hnil
        exact most_common_ne_nil _ n (fun hh =>
          (counterOf_length_pos _ htw).ne' (by rw [hh]; rfl)) hn hnil
      rw [themesGuard_ne_nil _ _ h2]
      exact take_ne_nil_of_ne_nil n _ h2 hn
    · have h1 := themesBackfill_ne_nil_left n (titleTokens stop title) _ h0
      rw [themesGuard_ne_nil _ _ h1]
      exact take_ne_nil_of_ne_nil n _ h1 hn
  · intro htext hcase
    rcases ne_or_eq (themesBase stop tfidf content n) [] with hbase | hbase
    · rw [identify_publication_themes]
      have h1 := themesBackfill_ne_nil_left n (titleTokens stop title) _ hbase
      rw [themesGuard_ne_nil _ _ h1]
      exact take_ne_nil_of_ne_nil n _ h1 hn
    · exfalso
      have hfreq : (most_common (counterOf (combinedTextTokens stop content))
          n).map Prod.fst ≠ [] := by
        intro hnil
        rw [List.map_eq_nil_iff] at hnil
        exact most_common_ne_nil _ n (fun hh =>
          (counterOf_length_pos _ htext).ne' (by rw [hh]; rfl)) hn hnil
      rw [themesBase.eq_def] at hbase
      by_cases hlen : 10 < (combinedTextTokens stop content).length
      · rw [if_pos hlen] at hbase
        rcases hcase with hcase | hcase | ⟨scores, hsc, hne⟩
        · omega
        · rw [hcase] at hbase
          exact hfreq hbase
        · rw [hsc] at hbase
          exact hne hbase
      · rw [if_neg hlen] at hbase
        exact hfreq hbase
  · intro htext htw
    rw [identify_publication_themes, htw]
    have hbase : themesBase stop tfidf content n = [] := by
      rw [themesBase.eq_def, htext]
      rw [if_neg (by simp)]
      simp [most_common, counterOf, sortKeyDesc]
    rw [hbase]
    have h1 : themesBackfill n [] [] = [] := by
      rw [themesBackfill, if_pos (by simpa using hn)]
      simp [most_common, counterOf, sortKeyDesc]
    rw [h1]
    have h2 : themesGuard [] [] = [] := rfl
    rw [h2]
    simp

/-- Witness for the amended C9 at `num_themes = 5`, the frequency path and a
two-token title. -/
theorem c9_themes_amended_witness :
    1 ≤ 5 ∧
    ((titleTokens basic_stop_words "Plant Growth" ≠ [] →
      identify_publication_themes basic_stop_words none "Plant Growth"
        c9Doc 5 ≠ []) ∧
    (combinedTextTokens basic_stop_words c9Doc ≠ [] →
      ((combinedTextTokens basic_stop_words c9Doc).length ≤ 10 ∨
        (none : Option (List (String × ℚ))) = none ∨
        (∃ scores, (none : Option (List (String × ℚ))) = some scores ∧
          tfidfThemes 5 scores ≠ [])) →
      identify_publication_themes basic_stop_words none "Plant Growth"
        c9Doc 5 ≠ []) ∧
    (combinedTextTokens basic_stop_words c9Doc = [] →
      titleTokens basic_stop_words "Plant Growth" = [] →
      identify_publication_themes basic_stop_words none "Plant Growth"
        c9Doc 5 = [])) :=
  ⟨by decide,
    c9_themes_amended basic_stop_words none "Plant Growth" c9Doc 5 (by decide)⟩

/-! ## C10: full-text search and context snippets -/

/-- Python `s.startswith(pre)`. -/
def pyStartsWith (s pre : String) : Bool := decide (pre.data <+: s.data)

/-- Index of the first occurrence of `q` at or after position `start`
(Python `str.find`; `none` for Python's `-1`). -/
def strFindAux (q : List Char) (i : Nat) : List Char → Option Nat
  | [] => if q.isPrefixOf [] then some i else none
  | c :: cs => if q.isPrefixOf (c :: cs) then some i else strFindAux q (i + 1) cs

def pyFind (text query : String) (start : Nat) : Option Nat :=
  (strFindAux query.data 0 (text.data.drop start)).map (· + start)

/-- The snippet around a match at `[startIdx, endIdx)`: `context_chars`
characters each side, with ellipses marking truncation. -/
def snippetAt (text : String) (startIdx endIdx context_chars : Nat) : String :=
  let ss := startIdx - context_chars
  let se := min text.data.length (endIdx + context_chars)
  let core := String.mk ((text.data.drop ss).take (se - ss))
  let core := if 0 < ss then "..." ++ core else core
  if se < text.data.length then core ++ "..." else core

/-- The exact-match snippet loop: scan forward from each match end, at most
`fuel = max_snippets` snippets. -/
def exactSnippetsAux (text query : String) (context_chars : Nat) :
    Nat → Nat → List String
  | 0, _ => []
  | fuel + 1, start =>
    match pyFind text query start with
    | none => []
    | some idx =>
      snippetAt text idx (idx + query.data.length) context_chars ::
        exactSnippetsAux text query context_chars fuel
          (idx + query.data.length)

/-- The variation list used by fuzzy snippet extraction: the literal word
and, for words longer than 3 characters, word+"s", word[:-1] (when ending in
"s"), word[:-2] (when ending in "es"), word[:-3]+"y" (when ending in "ies");
falsy entries dropped.  NOTE: the stem computed in the source's loop is
never used — snippets search only these literal variations. -/
def snippetVariations (word : String) : List String :=
  ([word] ++
    (if 3 < word.length then
      [word ++ "s",
       if pyEndsWith word "s" then pyDropRight word 1 else "",
       if pyEndsWith word "es" then pyDropRight word 2 else "",
       if pyEndsWith word "ies" then pyDropRight word 3 ++ "y" else ""]
     else [])).filter (fun v => v ≠ "")

/-- First whole-word match among the variations (those of length ≥ 3),
turned into a context snippet. -/
def firstVariationSnippet (text : String) (context_chars : Nat) :
    List String → Option String
  | [] => none
  | v :: rest =>
    if v.length < 3 then firstVariationSnippet text context_chars rest
    else
      match findWholeWord text v with
      | some idx =>
        some (snippetAt text idx (idx + v.data.length) context_chars)
      | none => firstVariationSnippet text context_chars rest

/-- The fuzzy snippet loop over the query words: at most one snippet per
word, stopping at `max_snippets`. -/
def fuzzySnippetsAux (text : String) (context_chars max_snippets : Nat) :
    List String → List String → List String
  | [], acc => acc.reverse
  | w :: ws, acc =>
    if max_snippets ≤ acc.length then acc.reverse
    else
      match firstVariationSnippet text context_chars (snippetVariations w) with
      | some s => fuzzySnippetsAux text context_chars max_snippets ws (s :: acc)
      | none => fuzzySnippetsAux text context_chars max_snippets ws acc

/-- `_extract_context_snippets(text, query, exact_match, 100, 2)`. -/
def extract_context_snippets (text query : String) (exact_match : Bool)
    (context_chars max_snippets : Nat) : List String :=
  if exact_match then exactSnippetsAux text query context_chars max_snippets 0
  else fuzzySnippetsAux text context_chars max_snippets
    (pySplit (pyLower query)) []

/-- A search hit `{title, url, matching_sections, snippets}`; a snippet is
`(text, section)`. -/
structure SearchResult where
  title : String
  url : String
  matching_sections : List String
  snippets : List (String × String)
deriving DecidableEq, Repr

/-- The matched `(lowercased text, section name)` pairs for one cached
document: abstract, results and conclusion are tested independently (subject
to the optional `section` filter), full text only when no section matched
and no filter was given. -/
def sectionChecks (stem : String → String) (content : Doc) (query : String)
    (sectionQ : Option String) (exact_match : Bool) :
    List (String × String) :=
  let l1 :=
    if (decide (sectionQ = some "abstract") || sectionQ.isNone) &&
        text_matches stem (pyLower content.abstract) query exact_match then
      [(pyLower content.abstract, "abstract")]
    else []
  let l2 :=
    if (decide (sectionQ = some "results") || sectionQ.isNone) &&
        text_matches stem (pyLower content.results) query exact_match then
      [(pyLower content.results, "results")]
    else []
  let l3 :=
    if (decide (sectionQ = some "conclusion") || sectionQ.isNone) &&
        text_matches stem (pyLower content.conclusion) query exact_match then
      [(pyLower content.conclusion, "conclusion")]
    else []
  let base := l1 ++ l2 ++ l3
  if sectionQ.isNone && base.isEmpty &&
      text_matches stem (pyLower content.full_text) query exact_match then
    base ++ [(pyLower content.full_text, "full text")]
  else base

/-- Append one resolved document's hit to the result list (deduplicated by
title, first hit wins; snippets capped at 3). -/
def appendHit (stem : String → String) (results : List SearchResult)
    (title url : String) (content : Doc) (query : String)
    (sectionQ : Option String) (exact_match : Bool) : List SearchResult :=
  let checks := sectionChecks stem content query sectionQ exact_match
  if checks.isEmpty then results
  else
    let context_snippets := checks.flatMap (fun ts =>
      (extract_context_snippets ts.1 query exact_match 100 2).map
        (fun s => (s, ts.2)))
    if results.any (fun r => r.title = title) then results
    else results ++
      [⟨title, url, checks.map Prod.snd, context_snippets.take 3⟩]

/-- `search_publications_full_text(query, section, exact_match)` over the
explicit collaborators: the publications table rows (Title, Link), the cache
listing as (hash-stem filename, document) pairs (the knowledge-graph and raw
HTML files are already excluded by the source's listing filter), Python's
process-local `hash` as `urlHash`, and NLTK's Porter stemmer as `stem`.
Folds the per-file loop carrying the url-hash map (which the
title-in-full-text fallback extends in place) and the result list. -/
def search_publications_full_text (stem : String → String)
    (urlHash : String → Int) (pubs : List (String × String))
    (cache : List (String × Doc)) (query0 : String)
    (sectionQ : Option String) (exact_match : Bool) : List SearchResult :=
  let query := pyLower query0
  let url_hash_map := pubs.foldl (fun m row =>
    if row.2 ≠ "" then
      let h := toString (urlHash row.2)
      let m := dictInsert m h (row.1, row.2)
      if pyStartsWith h "-" then
        dictInsert m (String.mk (h.data.drop 1)) (row.1, row.2)
      else m
    else m) []
  let step := fun (st : List (String × (String × String)) × List SearchResult)
      (file : String × Doc) =>
    let m := st.1
    let results := st.2
    let content := file.2
    let pd0 :=
      match dictGet? m file.1 with
      | some pd => some pd
      | none =>
        if pyStartsWith file.1 "-" then
          dictGet? m (String.mk (file.1.data.drop 1))
        else none
    match pd0 with
    | some pd =>
      (m, appendHit stem results pd.1 pd.2 content query sectionQ exact_match)
    | none =>
      match pubs.find? (fun row =>
        !(decide (pyLower row.1 = "")) &&
          pyIn (pyLower row.1) (pyLower content.full_text)) with
      | some row =>
        (dictInsert m file.1 (row.1, row.2),
         appendHit stem results row.1 row.2 content query sectionQ exact_match)
      | none => (m, results)
  (cache.foldl step (url_hash_map, [])).2

/-- A fragment of NLTK's Porter stemmer, agreeing with it on the words in
play here: Porter maps both "running" and "runs" to the stem "run"; the
remaining words are their own stems. -/
def demoStem (w : String) : String :=
  if w = "running" ∨ w = "runs" ∨ w = "run" then "run" else w

/-- Cached document for C10: its abstract contains "runs" but no whole-word
occurrence of "running" or any of its four suffix variations. -/
def c10Doc : Doc := { abstract := "runs often" }

/-- C10.  On the cached document "runs often" with the fuzzy query
"running", section matching succeeds through Porter-stem membership
(stem "running" = stem "runs" = "run"), but snippet extraction searches only
for whole-word occurrences of "running" and "runnings", which are absent —
so the returned result has a non-empty matching_sections list and an empty
snippets list. -/
theorem c10_stem_match_no_snippets :
    search_publications_full_text demoStem (fun _ => 7)
        [("Mice in Space", "u1")] [("7", c10Doc)] "running" none false =
      [⟨"Mice in Space", "u1", ["abstract"], []⟩] ∧
    ∃ r ∈ search_publications_full_text demoStem (fun _ => 7)
        [("Mice in Space", "u1")] [("7", c10Doc)] "running" none false,
      r.matching_sections ≠ [] ∧ r.snippets = [] := by
  decide

end NasaBio
